import Mathlib

/-!
Verification development for the go-tag-updater YAML tag-update engine.

Shallow embedding of:
- `internal/yaml/parser.go` (Parser: ParseContent, UpdateTag, UpdateTagSimple,
  ValidateYAML, GetTagValue, findTagLocations, findTagByPath, isTagField,
  pathsEqual, createAndUpdateTag);
- the Updater file (UpdateTagInFile, RollbackFromBackup, autoDetectTagPath,
  createBackup, validateAndCleanFilePath, readFile, writeFile, writeFileAtomic,
  fileExists);
- `pkg/errors/types.go` (error taxonomy, modelled by the `Err` inductive).

Modelling conventions:
- Go strings are Lean `String`; Go `len` (byte length) is `goLen`
  (`String.utf8ByteSize`).  The Go standard-library string and path helpers
  used by the code (`strings.Contains`, `strings.HasPrefix`, `strings.ToLower`,
  `strings.ReplaceAll`, `filepath.Clean`, `filepath.IsAbs`, `filepath.Dir`,
  `filepath.Base`, `filepath.Join`) are reimplemented below over `List Char`
  with Linux path semantics (the semantics under which the repository's own
  tests run); `ToLower` is modelled on ASCII, which agrees with Go on every
  string appearing in this development.
- The filesystem is a map `String → Option String`; fallibility of
  `os.WriteFile` and `os.Rename` (the two primitives whose failure the code
  handles with dedicated branches) is injected through an `FSOracle`.
  `os.Remove` of a just-created temporary file and `os.MkdirAll` are modelled
  as succeeding; `os.ReadFile` after a successful `Stat` is modelled as
  succeeding.  `time.Now().Format(BackupTimestampFormat)` is modelled as an
  explicit timestamp argument.
- The third-party YAML library (`gopkg.in/yaml.v3`) is modelled on the
  block-mapping subset (nested mappings with plain scalar leaves, two-space
  indentation), which is the subset exercised by the engine's tag-update
  contract; `yaml.Node` trees are the `YamlNode` inductive and node pointers
  are stable tree addresses (`List Nat`).
-/

/-- Error taxonomy of `pkg/errors/types.go`, restricted to the constructors
this subsystem uses.  `wrap` models `fmt.Errorf("...: %w", err)`. -/
inductive Err where
  | validation (msg : String)
  | invalidYAML (msg : String)
  | fileNotFound (path : String)
  | fileSystem (msg : String)
  | wrap (context : String) (cause : Err)
deriving DecidableEq, Repr

/-- `GetErrorCategory` of `pkg/errors/types.go`: `NewValidationError` has
category `validation`, `NewInvalidYAMLError` and `NewFileNotFoundError` have
category `file`, `NewFileSystemError` has category `filesystem`; a
`fmt.Errorf`-wrapped error is not an `*AppError`, hence `unknown`. -/
def Err.category : Err → String
  | .validation _ => "validation"
  | .invalidYAML _ => "file"
  | .fileNotFound _ => "file"
  | .fileSystem _ => "filesystem"
  | .wrap _ _ => "unknown"

/-- Whether an error is the file-not-found error (`NewFileNotFoundError`). -/
def Err.isNotFoundErr : Err → Bool
  | .fileNotFound _ => true
  | _ => false

/-- Whether an error is a validation error (`NewValidationError`). -/
def Err.isValidationErr : Err → Bool
  | .validation _ => true
  | _ => false

/-- Innermost error of a `fmt.Errorf("%w")` wrapping chain (what Go's
`errors.As` would recover). -/
def Err.rootCause : Err → Err
  | .wrap _ e => e.rootCause
  | e => e

/-- Go `len(s)`: the UTF-8 byte length of a string. -/
def goLen (s : String) : Nat := s.utf8ByteSize

/-- `isPrefixCh pat s`: `pat` is a prefix of `s` (character lists). -/
def isPrefixCh : List Char → List Char → Bool
  | [], _ => true
  | _ :: _, [] => false
  | a :: as, b :: bs => a == b && isPrefixCh as bs

/-- `containsCh s pat`: `pat` occurs as a contiguous substring of `s`
(Go `strings.Contains`). -/
def containsCh : List Char → List Char → Bool
  | [], pat => pat.isEmpty
  | s@(_ :: rest), pat => isPrefixCh pat s || containsCh rest pat

/-- Go `strings.Contains`. -/
def goContains (s sub : String) : Bool := containsCh s.data sub.data

/-- Go `strings.HasPrefix`. -/
def goStartsWith (s pre : String) : Bool := isPrefixCh pre.data s.data

/-- ASCII lower-casing of one character; agrees with Go `unicode.ToLower`
on ASCII input. -/
def asciiLower (c : Char) : Char :=
  if 'A' ≤ c && c ≤ 'Z' then Char.ofNat (c.toNat + 32) else c

/-- Go `strings.ToLower`, modelled on ASCII. -/
def goToLower (s : String) : String := ⟨s.data.map asciiLower⟩

/-- Go `strings.ReplaceAll(s, "\\", "/")` (the only ReplaceAll the code
performs; single-character pattern and replacement). -/
def goReplaceBackslash (s : String) : String :=
  ⟨s.data.map (fun c => if c == '\\' then '/' else c)⟩

/-- Split a character list at every occurrence of `sep`
(Go `strings.Split` semantics: `n+1` fields for `n` separators). -/
def splitChAux (sep : Char) : List Char → List Char → List (List Char)
  | acc, [] => [acc.reverse]
  | acc, c :: rest =>
    if c == sep then acc.reverse :: splitChAux sep [] rest
    else splitChAux sep (c :: acc) rest

/-- The lexical core of Go `path.Clean` / `filepath.Clean` (Linux):
process the `/`-separated elements left to right, skipping empty and `.`
elements, popping on `..` (or keeping a leading `..` when not rooted).
`acc` holds the output elements in reverse. -/
def cleanSegs (rooted : Bool) : List (List Char) → List (List Char) → List (List Char)
  | acc, [] => acc.reverse
  | acc, e :: rest =>
    if e = [] || e = ['.'] then cleanSegs rooted acc rest
    else if e = ['.', '.'] then
      match acc with
      | a :: as =>
        if a = ['.', '.'] then cleanSegs rooted (['.', '.'] :: acc) rest
        else cleanSegs rooted as rest
      | [] =>
        if rooted then cleanSegs rooted [] rest
        else cleanSegs rooted [['.', '.']] rest
    else cleanSegs rooted (e :: acc) rest

/-- Join path elements with `/`. -/
def joinSlash : List (List Char) → List Char
  | [] => []
  | [e] => e
  | e :: rest => e ++ '/' :: joinSlash rest

/-- Go `filepath.Clean` on Linux. -/
def goClean (path : String) : String :=
  match path.data with
  | [] => "."
  | c :: _ =>
    let rooted := c == '/'
    let body := joinSlash (cleanSegs rooted [] (splitChAux '/' [] path.data))
    if rooted then ⟨'/' :: body⟩
    else if body = [] then "." else ⟨body⟩

/-- Go `filepath.IsAbs` on Linux: the path starts with `/`. -/
def goIsAbs (s : String) : Bool := goStartsWith s "/"

/-- Go `filepath.Base` on Linux. -/
def goBase (p : String) : String :=
  if p = "" then "."
  else
    let trimmed := (p.data.reverse.dropWhile (· == '/')).reverse
    if trimmed = [] then "/"
    else ⟨(trimmed.reverse.takeWhile (· != '/')).reverse⟩

/-- Go `filepath.Dir` on Linux: everything up to and including the final
slash, then `Clean` (with `Clean "" = "."`). -/
def goDir (p : String) : String :=
  goClean ⟨(p.data.reverse.dropWhile (· != '/')).reverse⟩

/-- Go `filepath.Join` on Linux restricted to two elements: empty elements
are skipped and the result is `Clean`ed. -/
def goJoin (a b : String) : String :=
  if a = "" && b = "" then ""
  else if a = "" then goClean b
  else if b = "" then goClean a
  else goClean (a ++ "/" ++ b)

/-- `MaxFileSize` of `parser.go`: 10 MiB. -/
def MaxFileSize : Nat := 10 * 1024 * 1024

/-- `MaxTagValueLength` of `parser.go`. -/
def MaxTagValueLength : Nat := 256

/-- `Updater.validateAndCleanFilePath` of the Updater file: reject empty
paths, `Clean`, reject any cleaned path still containing `..`
(`PathTraversalPattern`), and allow absolute paths only under the temp-dir
allow-list (`/tmp/`, `/var/tmp/`, plus the Windows drive-letter temp dirs
after separator normalization when the path contains `:`); relative paths
fall through and are returned cleaned. -/
def validateAndCleanFilePath (filePath : String) : Except Err String :=
  if filePath = "" then .error (.validation "file path cannot be empty")
  else
    let cleanPath := goClean filePath
    if goContains cleanPath ".." then
      .error (.validation "file path contains invalid traversal patterns")
    else if goIsAbs cleanPath then
      let hasDrive := goContains cleanPath ":"
      let allowList :=
        if hasDrive then
          ["/tmp/", "/var/tmp/", "C:/temp/", "C:/tmp/", "D:/temp/", "D:/tmp/"]
        else ["/tmp/", "/var/tmp/"]
      let cleanPath2 := if hasDrive then goReplaceBackslash cleanPath else cleanPath
      if allowList.any (fun pre => goStartsWith (goToLower cleanPath2) (goToLower pre)) then
        .ok cleanPath2
      else
        .error (.validation "absolute file paths outside safe directories are not allowed")
    else .ok cleanPath

/-! ## YAML node trees

`yaml.Node` of gopkg.in/yaml.v3 as used by the parser: a node is a document,
a mapping (whose keys, always scalar in this engine's domain, are modelled by
their `Value` string), a sequence, or a scalar.  Node pointers are modelled
by stable tree addresses: the list of child indices from the root (for a
mapping, the pair index). -/

/-- `yaml.Node` restricted to the shape the engine traverses.  Line/column
bookkeeping is omitted: no modelled operation reads it. -/
inductive YamlNode where
  | scalar (value : String)
  | mapping (pairs : List (String × YamlNode))
  | sequence (items : List YamlNode)
  | document (content : List YamlNode)

/-- `Node.Value`: the literal text of a scalar; empty for non-scalar nodes. -/
def nodeValue : YamlNode → String
  | .scalar v => v
  | _ => ""

/-- Element at an index of a list, if present. -/
def getIdx? : List α → Nat → Option α
  | [], _ => none
  | a :: _, 0 => some a
  | _ :: as, n + 1 => getIdx? as n

/-- Replace the element at an index of a list, when present. -/
def modifyIdx : List α → Nat → (α → α) → List α
  | [], _, _ => []
  | a :: as, 0, f => f a :: as
  | a :: as, n + 1, f => a :: modifyIdx as n f

/-- The node at a tree address. -/
def addrNode : YamlNode → List Nat → Option YamlNode
  | t, [] => some t
  | .document cs, j :: r => (getIdx? cs j).bind (fun c => addrNode c r)
  | .sequence cs, j :: r => (getIdx? cs j).bind (fun c => addrNode c r)
  | .mapping ps, j :: r => (getIdx? ps j).bind (fun kv => addrNode kv.2 r)
  | .scalar _, _ :: _ => none

/-- The mapping key under which the node at a (non-empty) tree address is
stored, when the address's last step enters a mapping. -/
def addrKey : YamlNode → List Nat → Option String
  | _, [] => none
  | .mapping ps, [j] => (getIdx? ps j).map Prod.fst
  | .mapping ps, j :: r => (getIdx? ps j).bind (fun kv => addrKey kv.2 r)
  | .document cs, j :: r => (getIdx? cs j).bind (fun c => addrKey c r)
  | .sequence cs, j :: r => (getIdx? cs j).bind (fun c => addrKey c r)
  | .scalar _, _ :: _ => none

/-- The pointer write `location.Node.Value = newValue`: replace the scalar's
text at a tree address (no-op when the address misses or the node is not a
scalar, mirroring that only scalar-node locations are ever addressed). -/
def setValueAt : YamlNode → List Nat → String → YamlNode
  | .scalar _, [], v => .scalar v
  | t, [], _ => t
  | .document cs, j :: r, v => .document (modifyIdx cs j (fun c => setValueAt c r v))
  | .sequence cs, j :: r, v => .sequence (modifyIdx cs j (fun c => setValueAt c r v))
  | .mapping ps, j :: r, v => .mapping (modifyIdx ps j (fun kv => (kv.1, setValueAt kv.2 r v)))
  | .scalar s, _ :: _, _ => .scalar s

/-- `TagLocation` of `parser.go`: the path of key segments, the scalar's
current value (`Value`), and the node reference (`Node`) as a tree address. -/
structure TagLoc where
  path : List String
  value : String
  addr : List Nat
deriving DecidableEq, Repr

/-- `Parser.isTagField`: a mapping field is tag-like when its value is a
scalar and either the lower-cased key contains one of `tag`, `version`,
`image`, `release`, or the lower-cased value contains `v`, `.v` or `-` and
additionally contains `tag` or `version` (or the raw key contains `image`). -/
def isTagField (key : String) (valueNode : YamlNode) : Bool :=
  match valueNode with
  | .scalar v =>
    let keyLower := goToLower key
    if goContains keyLower "tag" || goContains keyLower "version" ||
        goContains keyLower "image" || goContains keyLower "release" then
      true
    else
      let value := goToLower v
      if goContains value "v" || goContains value ".v" || goContains value "-" then
        goContains value "tag" || goContains value "version" || goContains key "image"
      else false
  | _ => false

mutual

/-- `Parser.findTagLocations`: depth-first pre-order walk accumulating the
key path (`path`) and the node address (`addr`). -/
def findTagLocations : YamlNode → List String → List Nat → List TagLoc
  | .scalar _, _, _ => []
  | .document cs, path, addr => findLocsChildren cs path addr 0
  | .sequence cs, path, addr => findLocsSeq cs path addr 0
  | .mapping ps, path, addr => findLocsPairs ps path addr 0

/-- Walk of a document node's children (path unchanged). -/
def findLocsChildren : List YamlNode → List String → List Nat → Nat → List TagLoc
  | [], _, _, _ => []
  | c :: cs, path, addr, i =>
    findTagLocations c path (addr ++ [i]) ++ findLocsChildren cs path addr (i + 1)

/-- Walk of a sequence node's children (bracketed positional path segment). -/
def findLocsSeq : List YamlNode → List String → List Nat → Nat → List TagLoc
  | [], _, _, _ => []
  | c :: cs, path, addr, i =>
    findTagLocations c (path ++ ["[" ++ toString i ++ "]"]) (addr ++ [i])
      ++ findLocsSeq cs path addr (i + 1)

/-- Walk of a mapping node's key/value pairs: pairs with an empty key are
skipped entirely; tag-like fields are recorded before recursing into the
value. -/
def findLocsPairs : List (String × YamlNode) → List String → List Nat → Nat → List TagLoc
  | [], _, _, _ => []
  | (k, v) :: ps, path, addr, i =>
    (if k ≠ "" then
      (if isTagField k v then [⟨path ++ [k], nodeValue v, addr ++ [i]⟩] else [])
        ++ findTagLocations v (path ++ [k]) (addr ++ [i])
     else []) ++ findLocsPairs ps path addr (i + 1)

end

/-! Pre-order enumeration of all mapping fields (key, value node, full path,
address) visited by the traversal; used to state the locations-list
characterization. -/

mutual

def fieldsNode : YamlNode → List String → List Nat → List (String × YamlNode × List String × List Nat)
  | .scalar _, _, _ => []
  | .document cs, path, addr => fieldsChildren cs path addr 0
  | .sequence cs, path, addr => fieldsSeq cs path addr 0
  | .mapping ps, path, addr => fieldsPairs ps path addr 0

def fieldsChildren : List YamlNode → List String → List Nat → Nat → List (String × YamlNode × List String × List Nat)
  | [], _, _, _ => []
  | c :: cs, path, addr, i =>
    fieldsNode c path (addr ++ [i]) ++ fieldsChildren cs path addr (i + 1)

def fieldsSeq : List YamlNode → List String → List Nat → Nat → List (String × YamlNode × List String × List Nat)
  | [], _, _, _ => []
  | c :: cs, path, addr, i =>
    fieldsNode c (path ++ ["[" ++ toString i ++ "]"]) (addr ++ [i])
      ++ fieldsSeq cs path addr (i + 1)

def fieldsPairs : List (String × YamlNode) → List String → List Nat → Nat → List (String × YamlNode × List String × List Nat)
  | [], _, _, _ => []
  | (k, v) :: ps, path, addr, i =>
    (if k ≠ "" then
      (k, v, path ++ [k], addr ++ [i]) :: fieldsNode v (path ++ [k]) (addr ++ [i])
     else []) ++ fieldsPairs ps path addr (i + 1)

end


/-! ## YAML text layer

Model of yaml.v3 serialization (`Encoder.SetIndent(2); Encode`) and parsing
(`yaml.Unmarshal`) on the block-mapping subset: a document is a sequence of
lines, each `indent` spaces, a key, a colon, and either an inline scalar
value (after one space) or nothing (a nested mapping block follows, indented
two spaces deeper).  On this subset yaml.v3's parse and emit are mutually
inverse, which is the library behavior the engine's round-trip and
idempotence properties rest on. -/

/-- One physical line of a block-mapping document. -/
structure Line where
  indent : Nat
  key : String
  val : Option String
deriving DecidableEq, Repr

/-- Characters of a rendered line, including the trailing newline. -/
def renderLine (l : Line) : List Char :=
  List.replicate l.indent ' ' ++ l.key.data ++ [':'] ++
    (match l.val with
     | some v => ' ' :: v.data
     | none => []) ++ ['\n']

/-- Characters of a rendered sequence of lines. -/
def renderAll (ls : List Line) : List Char :=
  (ls.map renderLine).flatten

/-- Split a character stream into newline-terminated lines; fails when the
last line is unterminated. -/
def splitLinesAux : List Char → List Char → Option (List (List Char))
  | acc, [] => if acc.isEmpty then some [] else none
  | acc, c :: rest =>
    if c == '\n' then (splitLinesAux [] rest).map (fun ls => acc.reverse :: ls)
    else splitLinesAux (c :: acc) rest

/-- Lex one line: leading spaces, a non-empty colon-free key, a colon, then
either end of line or a space and the scalar text. -/
def lexLine (cs : List Char) : Option Line :=
  let ind := (cs.takeWhile (· == ' ')).length
  let rest := cs.dropWhile (· == ' ')
  let key := rest.takeWhile (· != ':')
  let after := rest.dropWhile (· != ':')
  if key.isEmpty then none
  else
    match after with
    | [':'] => some ⟨ind, ⟨key⟩, none⟩
    | ':' :: ' ' :: vs => some ⟨ind, ⟨key⟩, some ⟨vs⟩⟩
    | _ => none

/-- Lex a list of line bodies. -/
def lexList : List (List Char) → Option (List Line)
  | [] => some []
  | cs :: rest =>
    match lexLine cs with
    | some l => (lexList rest).map (fun ls => l :: ls)
    | none => none

/-- Lex a whole document into lines. -/
def lexAll (cs : List Char) : Option (List Line) :=
  (splitLinesAux [] cs).bind lexList

/-- Parse a block of lines as a mapping at the expected indentation, with
explicit fuel (any fuel at least the number of lines gives the same answer):
an inline value gives a scalar pair; a bare `key:` line opens a nested block
consisting of every immediately following strictly deeper line. -/
def parseBlockF : Nat → List Line → Nat → Option (List (String × YamlNode))
  | _, [], _ => some []
  | 0, _ :: _, _ => none
  | fuel + 1, l :: rest, n =>
    if l.indent = n then
      match l.val with
      | some v =>
        match parseBlockF fuel rest n with
        | some ps => some ((l.key, .scalar v) :: ps)
        | none => none
      | none =>
        if (rest.takeWhile fun l2 => n < l2.indent).isEmpty then none
        else
          match parseBlockF fuel (rest.takeWhile fun l2 => n < l2.indent) (n + 2),
                parseBlockF fuel (rest.dropWhile fun l2 => n < l2.indent) n with
          | some inner, some ps => some ((l.key, .mapping inner) :: ps)
          | _, _ => none
    else none

/-- Parse a block of lines as a mapping at the expected indentation. -/
def parseBlock (lines : List Line) (n : Nat) : Option (List (String × YamlNode)) :=
  parseBlockF lines.length lines n

/-- `yaml.Unmarshal` on the modelled subset: a whole-document parse into a
document node wrapping one mapping node. -/
def parseYaml (content : String) : Option YamlNode :=
  (lexAll content.data).bind (fun ls =>
    (parseBlock ls 0).map (fun ps => .document [.mapping ps]))

mutual

/-- Lines of a serialized mapping at an indentation level (two-space nesting,
matching `DefaultIndentation`). -/
def flattenPairs : List (String × YamlNode) → Nat → List Line
  | [], _ => []
  | (k, v) :: rest, n => flattenPair k v n ++ flattenPairs rest n

/-- Lines of one serialized key/value pair; non-subset nodes contribute
nothing. -/
def flattenPair : String → YamlNode → Nat → List Line
  | k, .scalar v, n => [⟨n, k, some v⟩]
  | k, .mapping ps, n => ⟨n, k, none⟩ :: flattenPairs ps (n + 2)
  | _, _, _ => []

end

/-- `Encoder.Encode` (indent 2) on the modelled subset. -/
def encodeYaml : YamlNode → String
  | .document [.mapping ps] => ⟨renderAll (flattenPairs ps 0)⟩
  | .mapping ps => ⟨renderAll (flattenPairs ps 0)⟩
  | .document [.scalar v] => ⟨v.data ++ ['\n']⟩
  | .scalar v => ⟨v.data ++ ['\n']⟩
  | _ => ""

/-! ## Parser API (`internal/yaml/parser.go`)

Go's nil-pointer guards on `parseResult`/`options` arguments have no
analogue for Lean's non-nullable values and are omitted; every other check
is mirrored in source order.  Dynamic `%v` interpolations of underlying
library errors are modelled by their static message prefix. -/

/-- `fmt.Sprintf("%v", path)` for a Go `[]string`. -/
def fmtStrs (xs : List String) : String := "[" ++ String.intercalate " " xs ++ "]"

/-- `ParseResult` of `parser.go`. -/
structure ParseResult where
  Content : YamlNode
  TagLocations : List TagLoc
  OriginalContent : String
  IsValid : Bool
  Errors : List String

/-- `UpdateOptions` of `parser.go`. -/
structure UpdateOptions where
  TagPath : List String
  NewValue : String
  CreateIfMissing : Bool
  BackupContent : Bool

/-- `Parser.ParseContent`: reject empty and oversized content, parse, then
index every tag location found by the traversal. -/
def parseContent (content : String) : Except Err ParseResult :=
  if content = "" then .error (.validation "YAML content cannot be empty")
  else if MaxFileSize < goLen content then
    .error (.validation ("YAML content too large: " ++ toString (goLen content) ++
      " bytes (max " ++ toString MaxFileSize ++ ")"))
  else
    match parseYaml content with
    | none => .error (.invalidYAML "failed to parse YAML")
    | some rootNode =>
      .ok ⟨rootNode, findTagLocations rootNode [] [], content, true, []⟩

/-- `Parser.pathsEqual`: length check then segment-wise comparison. -/
def pathsEqual (path1 path2 : List String) : Bool :=
  if path1.length != path2.length then false
  else (List.zip path1 path2).all (fun ab => ab.1 == ab.2)

/-- `Parser.findTagByPath`: first indexed location whose path equals the
target. -/
def findTagByPath (parseResult : ParseResult) (targetPath : List String) : Option TagLoc :=
  parseResult.TagLocations.find? (fun loc => pathsEqual loc.path targetPath)

/-- `Parser.createAndUpdateTag`: explicitly unimplemented. -/
def createAndUpdateTag (_ : ParseResult) (_ : UpdateOptions) : Except Err String :=
  .error (.validation "creating new tags is not implemented yet")

/-- `Parser.UpdateTag`: value checks (empty, oversized) first, then path
lookup, then the pointer write and a whole-tree re-serialization. -/
def updateTag (parseResult : ParseResult) (options : UpdateOptions) : Except Err String :=
  if options.NewValue = "" then .error (.validation "new tag value cannot be empty")
  else if MaxTagValueLength < goLen options.NewValue then
    .error (.validation ("tag value too long: " ++ toString (goLen options.NewValue) ++
      " characters (max " ++ toString MaxTagValueLength ++ ")"))
  else
    match findTagByPath parseResult options.TagPath with
    | none =>
      if options.CreateIfMissing then createAndUpdateTag parseResult options
      else .error (.validation ("tag not found at path: " ++ fmtStrs options.TagPath))
    | some tagLocation =>
      .ok (encodeYaml (setValueAt parseResult.Content tagLocation.addr options.NewValue))

/-- The fixed, ordered probe list of `Parser.UpdateTagSimple`. -/
def commonTagPaths : List (List String) :=
  [["tag"],
   ["image", "tag"],
   ["spec", "template", "spec", "containers", "image"],
   ["spec", "containers", "image"],
   ["metadata", "labels", "version"],
   ["version"]]

/-- The probe loop of `Parser.UpdateTagSimple`. -/
def probeTagPaths (parseResult : ParseResult) (newTag : String) : List (List String) → Except Err String
  | [] => .error (.validation "no suitable tag field found in YAML content")
  | tagPath :: rest =>
    if (findTagByPath parseResult tagPath).isSome then
      updateTag parseResult ⟨tagPath, newTag, false, false⟩
    else probeTagPaths parseResult newTag rest

/-- `Parser.UpdateTagSimple`: re-parse, then probe the conventional paths. -/
def updateTagSimple (content newTag : String) : Except Err String :=
  match parseContent content with
  | .error e => .error (.wrap "failed to parse YAML content" e)
  | .ok parseResult => probeTagPaths parseResult newTag commonTagPaths

/-- The first probed conventional path present among the detected
locations. -/
def firstCommonPath (parseResult : ParseResult) : Option (List String) :=
  commonTagPaths.find? (fun p => (findTagByPath parseResult p).isSome)

/-- `Parser.ValidateYAML`: empty check then a syntax-only parse. -/
def validateYAML (content : String) : Option Err :=
  if content = "" then some (.validation "YAML content cannot be empty")
  else
    match parseYaml content with
    | none => some (.invalidYAML "invalid YAML syntax")
    | some _ => none

/-- `Parser.GetTagValue`: look up the location, prefer the live node's
non-empty `Value`, fall back to the indexed `Value` field. -/
def getTagValue (parseResult : ParseResult) (tagPath : List String) : Except Err String :=
  match findTagByPath parseResult tagPath with
  | none => .error (.validation ("tag not found at path: " ++ fmtStrs tagPath))
  | some tagLocation =>
    match addrNode parseResult.Content tagLocation.addr with
    | some node => if nodeValue node ≠ "" then .ok (nodeValue node) else .ok tagLocation.value
    | none => .ok tagLocation.value

/-- The preferred final path segments of `Updater.autoDetectTagPath`, in
priority order. -/
def preferredTagNames : List String := ["tag", "version", "image"]

/-- The nested preference loop of `Updater.autoDetectTagPath`: for each
preferred name in order, the first location whose final segment lower-cases
to it. -/
def findPreferred (locs : List TagLoc) : List String → Option (List String)
  | [] => none
  | name :: rest =>
    match locs.find? (fun loc =>
        !loc.path.isEmpty && goToLower (loc.path.getLastD "") == name) with
    | some loc => some loc.path
    | none => findPreferred locs rest

/-- `Updater.autoDetectTagPath`: error when no locations were detected;
otherwise the preference loop, falling back to the first detected
location. -/
def autoDetectTagPath (parseResult : ParseResult) : Except Err (List String) :=
  if parseResult.TagLocations.isEmpty then
    .error (.validation "no tag fields found in YAML content")
  else
    match findPreferred parseResult.TagLocations preferredTagNames with
    | some p => .ok p
    | none =>
      match parseResult.TagLocations with
      | loc :: _ => .ok loc.path
      | [] => .error (.validation "no tag fields found in YAML content")

/-- Key-based half of the tag-field heuristic: the lower-cased key contains
one of the four fixed substrings.  A field with such a key is classified
tag-like regardless of its (scalar) value. -/
def keyMatch (key : String) : Bool :=
  goContains (goToLower key) "tag" || goContains (goToLower key) "version" ||
    goContains (goToLower key) "image" || goContains (goToLower key) "release"

/-- The tag-field classification as claim C4 words it (stated from the
specification, for comparison against `isTagField`): clause (b) requires the
KEY — not the value — to also contain `tag`/`version`/`image`; and clause
(a) is not restricted to scalar values. -/
def claimTagField (key : String) (valueNode : YamlNode) : Bool :=
  keyMatch key ||
    (match valueNode with
     | .scalar v =>
       let value := goToLower v
       (goContains value "v" || goContains value ".v" || goContains value "-") &&
         (goContains (goToLower key) "tag" || goContains (goToLower key) "version" ||
          goContains (goToLower key) "image")
     | _ => false)

/-! ## Filesystem model and Updater operations -/

/-- The filesystem: file contents by path. -/
def FS : Type := String → Option String

/-- An empty filesystem. -/
def fsEmpty : FS := fun _ => none

/-- `os.WriteFile` effect. -/
def fsWrite (fs : FS) (p c : String) : FS :=
  fun q => if q = p then some c else fs q

/-- `os.Remove` effect. -/
def fsRemove (fs : FS) (p : String) : FS :=
  fun q => if q = p then none else fs q

/-- `os.Rename src dst` effect: `dst` receives `src`'s content, `src`
disappears. -/
def fsRename (fs : FS) (src dst : String) : FS :=
  fun q => if q = dst then fs src else if q = src then none else fs q

/-- Failure injection for the two fallible primitives whose errors the code
handles in dedicated branches. -/
structure FSOracle where
  writeOk : String → Bool
  renameOk : String → String → Bool

/-- An oracle under which every primitive succeeds. -/
def allOk : FSOracle := ⟨fun _ => true, fun _ _ => true⟩

/-- `Updater` configuration fields (the `parser` field carries no state
relevant to this model: parsers are pure here). -/
structure Updater where
  backupDir : String
  keepBackups : Bool
  atomicWrite : Bool

/-- `NewUpdater`: sibling backups, backups kept, atomic writes. -/
def NewUpdater : Updater := ⟨"", true, true⟩

/-- The temporary path used by `Updater.writeFileAtomic`:
`filepath.Join(Dir(path), Base(path) + TempFileSuffix)`. -/
def tempPathFor (filePath : String) : String :=
  goJoin (goDir filePath) (goBase filePath ++ ".tmp")

/-- `Updater.writeFileAtomic`: write the full content to the sibling
temporary file, then one rename; on rename failure remove the temporary file
(ignoring removal errors) and report a `FileSystemError`. -/
def writeFileAtomic (orc : FSOracle) (fs : FS) (filePath content : String) : FS × Option Err :=
  let tempPath := tempPathFor filePath
  if orc.writeOk tempPath then
    let fs1 := fsWrite fs tempPath content
    if orc.renameOk tempPath filePath then
      (fsRename fs1 tempPath filePath, none)
    else
      (fsRemove fs1 tempPath, some (.fileSystem "failed to rename temporary file"))
  else (fs, some (.fileSystem "failed to write temporary file"))

/-- `Updater.writeFile`: validate and clean the path, then write atomically
or directly according to configuration. -/
def writeFile (cfg : Updater) (orc : FSOracle) (fs : FS) (filePath content : String) : FS × Option Err :=
  match validateAndCleanFilePath filePath with
  | .error e => (fs, some e)
  | .ok cleanPath =>
    if cfg.atomicWrite then writeFileAtomic orc fs cleanPath content
    else if orc.writeOk cleanPath then (fsWrite fs cleanPath content, none)
    else (fs, some (.fileSystem ("failed to write file " ++ cleanPath)))

/-- `Updater.fileExists`: a path failing validation counts as non-existent;
otherwise `os.Stat` on the cleaned path. -/
def fileExists (fs : FS) (filePath : String) : Bool :=
  match validateAndCleanFilePath filePath with
  | .error _ => false
  | .ok cleanPath => (fs cleanPath).isSome

/-- `Updater.readFile`: validate and clean, require existence, then read the
cleaned path. -/
def readFile (fs : FS) (filePath : String) : Except Err String :=
  match validateAndCleanFilePath filePath with
  | .error e => .error e
  | .ok cleanPath =>
    if fileExists fs cleanPath then
      match fs cleanPath with
      | some content => .ok content
      | none => .error (.fileSystem ("failed to read file " ++ cleanPath))
    else .error (.fileNotFound cleanPath)

/-- The backup path computed by `Updater.createBackup` for a formatted
timestamp: under the configured backup directory when one is set, else a
timestamped sibling of the original file. -/
def backupPathFor (cfg : Updater) (filePath ts : String) : String :=
  if cfg.backupDir != "" then
    goJoin cfg.backupDir (goBase filePath ++ "." ++ ts ++ ".backup")
  else filePath ++ "." ++ ts ++ ".backup"

/-- `Updater.createBackup`: write the original content to the timestamped
backup path (`os.MkdirAll` of a configured backup directory modelled as
succeeding; directories are not tracked). -/
def createBackup (cfg : Updater) (orc : FSOracle) (fs : FS) (filePath content ts : String) :
    FS × Except Err String :=
  let backupPath := backupPathFor cfg filePath ts
  match writeFile cfg orc fs backupPath content with
  | (fs1, some e) => (fs1, .error (.wrap "failed to write backup file" e))
  | (fs1, none) => (fs1, .ok backupPath)

/-- `Updater.RollbackFromBackup`: argument checks, backup existence, backup
read, backup syntax validation, then restore through the same write path. -/
def rollbackFromBackup (cfg : Updater) (orc : FSOracle) (fs : FS) (filePath backupPath : String) :
    FS × Option Err :=
  if filePath = "" then (fs, some (.validation "file path cannot be empty"))
  else if backupPath = "" then (fs, some (.validation "backup path cannot be empty"))
  else if !fileExists fs backupPath then (fs, some (.fileNotFound backupPath))
  else
    match readFile fs backupPath with
    | .error e => (fs, some (.wrap ("failed to read backup file " ++ backupPath) e))
    | .ok backupContent =>
      match validateYAML backupContent with
      | some e => (fs, some (.wrap "backup file contains invalid YAML" e))
      | none =>
        match writeFile cfg orc fs filePath backupContent with
        | (fs1, some e) => (fs1, some (.wrap "failed to restore file from backup" e))
        | (fs1, none) => (fs1, none)

/-- `UpdateRequest` of the Updater file. -/
structure UpdateRequest where
  FilePath : String
  NewTagValue : String
  TagPath : List String
  CreateBackup : Bool
  ValidateAfter : Bool
  DryRun : Bool

/-- `UpdateResult` of the Updater file. -/
structure UpdateResult where
  Success : Bool
  UpdatedContent : String
  BackupPath : String
  OriginalContent : String
  ValidationError : Option Err
  ChangesDetected : Bool
deriving DecidableEq, Repr

/-- `Updater.UpdateTagInFile`: request checks, validated read, parse,
auto-detection when no explicit path is given, the update itself,
change detection (`originalContent != updatedContent`), optional post
validation, then — unless dry-running — optional backup and the final
write. -/
def updateTagInFile (cfg : Updater) (orc : FSOracle) (ts : String) (fs : FS)
    (request : UpdateRequest) : FS × Except Err UpdateResult :=
  if request.FilePath = "" then
    (fs, .error (.validation "file path cannot be empty"))
  else if request.NewTagValue = "" then
    (fs, .error (.validation "new tag value cannot be empty"))
  else
    match readFile fs request.FilePath with
    | .error e => (fs, .error (.wrap ("failed to read file " ++ request.FilePath) e))
    | .ok originalContent =>
      match parseContent originalContent with
      | .error e => (fs, .error (.wrap ("failed to parse YAML file " ++ request.FilePath) e))
      | .ok parseResult =>
        match (if request.TagPath.isEmpty then autoDetectTagPath parseResult
               else .ok request.TagPath) with
        | .error e => (fs, .error (.wrap "failed to auto-detect tag path" e))
        | .ok tagPath =>
          match updateTag parseResult ⟨tagPath, request.NewTagValue, false, false⟩ with
          | .error e => (fs, .error (.wrap "failed to update tag" e))
          | .ok updatedContent =>
            let changes := originalContent != updatedContent
            let vErr : Option Err :=
              if request.ValidateAfter then validateYAML updatedContent else none
            if request.DryRun then
              (fs, .ok ⟨true, updatedContent, "", originalContent, vErr, changes⟩)
            else if request.CreateBackup && cfg.keepBackups then
              match createBackup cfg orc fs request.FilePath originalContent ts with
              | (fs1, .error e) => (fs1, .error (.wrap "failed to create backup" e))
              | (fs1, .ok bp) =>
                match writeFile cfg orc fs1 request.FilePath updatedContent with
                | (fs2, some e) => (fs2, .error (.wrap "failed to write updated file" e))
                | (fs2, none) =>
                  (fs2, .ok ⟨true, updatedContent, bp, originalContent, vErr, changes⟩)
            else
              match writeFile cfg orc fs request.FilePath updatedContent with
              | (fs2, some e) => (fs2, .error (.wrap "failed to write updated file" e))
              | (fs2, none) =>
                (fs2, .ok ⟨true, updatedContent, "", originalContent, vErr, changes⟩)

/-! ## Wellformedness of the modelled YAML subset

The class of trees on which the modelled yaml.v3 emit and parse are mutually
inverse: nested non-empty mappings whose keys are non-empty, colon-free,
newline-free and not space-initial, and whose scalar values are
newline-free.  (Real yaml.v3 would quote strings outside this class; the
model simply stays inside it.) -/

/-- A mapping key inside the invertible subset. -/
def keyOK (k : String) : Bool :=
  match k.data with
  | [] => false
  | c :: _ => c != ' ' && k.data.all (fun c2 => c2 != ':' && c2 != '\n')

/-- A scalar value inside the invertible subset. -/
def valOK (v : String) : Bool := v.data.all (fun c => c != '\n')

mutual

/-- Subset membership for nodes. -/
def wfNode : YamlNode → Bool
  | .scalar v => valOK v
  | .mapping ps => !ps.isEmpty && wfPairs ps
  | .sequence _ => false
  | .document _ => false

/-- Subset membership for mapping pair lists. -/
def wfPairs : List (String × YamlNode) → Bool
  | [] => true
  | (k, v) :: ps => keyOK k && wfNode v && wfPairs ps

end

/-- Subset membership for parsed roots: one document node wrapping one
non-empty wellformed mapping. -/
def wfRoot : YamlNode → Bool
  | .document [.mapping ps] => !ps.isEmpty && wfPairs ps
  | _ => false

/-- A lexed line inside the invertible subset. -/
def LineOK (l : Line) : Bool :=
  keyOK l.key &&
    (match l.val with
     | some v => valOK v
     | none => true)

/-- The tag-field classification as the code actually computes it, written
as one boolean formula (the amended claim C4): the value must be a scalar,
and either the key matches, or the lower-cased value contains a `v`/`.v`/`-`
pattern and additionally contains `tag` or `version` in the VALUE (or
`image` in the raw key — a case subsumed by the key clause). -/
def amendedTagField (key : String) (valueNode : YamlNode) : Bool :=
  match valueNode with
  | .scalar sv =>
    keyMatch key ||
      ((goContains (goToLower sv) "v" || goContains (goToLower sv) ".v" ||
          goContains (goToLower sv) "-") &&
        (goContains (goToLower sv) "tag" || goContains (goToLower sv) "version" ||
          goContains key "image"))
  | _ => false

/-- The filter step turning an enumerated field into a tag location. -/
def locFilter (e : String × YamlNode × List String × List Nat) : Option TagLoc :=
  if isTagField e.1 e.2.1 then some ⟨e.2.2.1, nodeValue e.2.1, e.2.2.2⟩ else none

/-- The mapping key under which the node at relative address `r` below the
pair `(k, v)` is stored. -/
def keyAt (k : String) (v : YamlNode) : List Nat → Option String
  | [] => some k
  | j :: r =>
    match v with
    | .mapping qs => (getIdx? qs j).bind (fun kv => keyAt kv.1 kv.2 r)
    | _ => none

/-- Whether the key governing the node at relative address `r` below the
pair `(k, v)` is key-matched. -/
def keyMatchAt (k : String) (v : YamlNode) (r : List Nat) : Bool :=
  match keyAt k v r with
  | some key => keyMatch key
  | none => false

/-! ## Theorems -/

/-- `pathsEqual` decides list equality: segment-wise, order- and
length-sensitive. -/
theorem pathsEqual_iff : ∀ p q : List String, pathsEqual p q = true ↔ p = q := by
  have hz : ∀ p q : List String, p.length = q.length →
      ((List.zip p q).all (fun ab => ab.1 == ab.2) = true ↔ p = q) := by
    intro p
    induction p with
    | nil =>
      intro q h
      cases q with
      | nil => simp
      | cons b bs => simp at h
    | cons a as ih =>
      intro q h
      cases q with
      | nil => simp at h
      | cons b bs =>
        have hih := ih bs (by simpa using h)
        simp only [List.zip_cons_cons, List.all_cons, Bool.and_eq_true, beq_iff_eq,
          List.cons.injEq, hih]
  intro p q
  unfold pathsEqual
  by_cases h : p.length = q.length
  · have hb : (p.length != q.length) = false := by simp [h]
    rw [hb]
    simpa using hz p q h
  · have hb : (p.length != q.length) = true := by simp [h]
    rw [hb]
    simp only [if_true, Bool.false_eq_true, false_iff]
    intro he
    exact h (congrArg List.length he)

/-- The probe loop of `UpdateTagSimple` applies the update at the first
probed path present among the locations, and fails with the fixed
validation error when none is. -/
theorem probe_eq_find (pr : ParseResult) (newTag : String) :
    ∀ paths : List (List String), probeTagPaths pr newTag paths =
      (match paths.find? (fun p => (findTagByPath pr p).isSome) with
       | some p => updateTag pr ⟨p, newTag, false, false⟩
       | none => .error (.validation "no suitable tag field found in YAML content")) := by
  intro paths
  induction paths with
  | nil => rfl
  | cons p rest ih =>
    simp only [probeTagPaths, List.find?]
    cases h : (findTagByPath pr p).isSome <;> simp [h, ih]

mutual

/-- The locations index is exactly the pre-order field enumeration filtered
by the tag-field heuristic (node level). -/
theorem locsNode_eq : (t : YamlNode) → (path : List String) → (addr : List Nat) →
    findTagLocations t path addr = (fieldsNode t path addr).filterMap locFilter
  | .scalar _, _, _ => by simp [findTagLocations, fieldsNode]
  | .document cs, path, addr => by
    simp only [findTagLocations, fieldsNode]
    exact locsChildren_eq cs path addr 0
  | .sequence cs, path, addr => by
    simp only [findTagLocations, fieldsNode]
    exact locsSeq_eq cs path addr 0
  | .mapping ps, path, addr => by
    simp only [findTagLocations, fieldsNode]
    exact locsPairs_eq ps path addr 0

/-- Filtered-enumeration characterization: document children. -/
theorem locsChildren_eq : (cs : List YamlNode) → (path : List String) → (addr : List Nat) →
    (i : Nat) →
    findLocsChildren cs path addr i = (fieldsChildren cs path addr i).filterMap locFilter
  | [], _, _, _ => by simp [findLocsChildren, fieldsChildren]
  | c :: cs, path, addr, i => by
    simp only [findLocsChildren, fieldsChildren, List.filterMap_append]
    rw [locsNode_eq c path (addr ++ [i]), locsChildren_eq cs path addr (i + 1)]

/-- Filtered-enumeration characterization: sequence children. -/
theorem locsSeq_eq : (cs : List YamlNode) → (path : List String) → (addr : List Nat) →
    (i : Nat) →
    findLocsSeq cs path addr i = (fieldsSeq cs path addr i).filterMap locFilter
  | [], _, _, _ => by simp [findLocsSeq, fieldsSeq]
  | c :: cs, path, addr, i => by
    simp only [findLocsSeq, fieldsSeq, List.filterMap_append]
    rw [locsNode_eq c (path ++ ["[" ++ toString i ++ "]"]) (addr ++ [i]),
      locsSeq_eq cs path addr (i + 1)]

/-- Filtered-enumeration characterization: mapping pairs. -/
theorem locsPairs_eq : (ps : List (String × YamlNode)) → (path : List String) →
    (addr : List Nat) → (i : Nat) →
    findLocsPairs ps path addr i = (fieldsPairs ps path addr i).filterMap locFilter
  | [], _, _, _ => by simp [findLocsPairs, fieldsPairs]
  | (k, v) :: ps, path, addr, i => by
    by_cases hk : k = ""
    · simp only [findLocsPairs, fieldsPairs, hk]
      simp only [ne_eq, not_true_eq_false, if_false, List.nil_append]
      rw [locsPairs_eq ps path addr (i + 1)]
    · have hk2 : k ≠ "" := hk
      simp only [findLocsPairs, fieldsPairs, if_pos hk2]
      rw [List.filterMap_append, List.filterMap_cons,
        locsNode_eq v (path ++ [k]) (addr ++ [i]), locsPairs_eq ps path addr (i + 1)]
      cases htf : isTagField k v <;> simp [locFilter, htf]

end

/-- C1: the path validator rejects `../../../etc/passwd`, `/etc/passwd` and
the Windows-style `..\..\windows\system32\...`, and accepts `/tmp/foo.yaml`
and `config/app.yaml`, as claimed; but it ACCEPTS the relative paths
`etc/passwd` and `usr/local/bin/test` — the claimed deny-list for relative
paths whose first segment names a sensitive system directory does not exist
in the code, although the repository's own test `TestPathTraversalSecurity`
requires both to be rejected. -/
theorem c1_path_validator_eval :
    validateAndCleanFilePath "../../../etc/passwd"
      = .error (.validation "file path contains invalid traversal patterns") ∧
    validateAndCleanFilePath "/etc/passwd"
      = .error (.validation "absolute file paths outside safe directories are not allowed") ∧
    validateAndCleanFilePath "..\\..\\windows\\system32\\..."
      = .error (.validation "file path contains invalid traversal patterns") ∧
    validateAndCleanFilePath "/tmp/foo.yaml" = .ok "/tmp/foo.yaml" ∧
    validateAndCleanFilePath "config/app.yaml" = .ok "config/app.yaml" ∧
    validateAndCleanFilePath "etc/passwd" = .ok "etc/passwd" ∧
    validateAndCleanFilePath "usr/local/bin/test" = .ok "usr/local/bin/test" := by
  refine ⟨?_, ?_, ?_, ?_, ?_, ?_, ?_⟩ <;> rfl

/-- C2 counterexample: when no location matches the requested path,
`UpdateTag` fails with `NewValidationError("tag not found at path: ...")` —
a validation error, not the claimed NotFoundError
(`NewFileNotFoundError`). -/
theorem c2_not_found_is_validation :
    ((parseContent "name: x\ntag: v1\n").bind fun pr =>
        updateTag pr ⟨["nope"], "2.0.0", false, false⟩)
      = .error (.validation "tag not found at path: [nope]") ∧
    Err.isNotFoundErr (.validation "tag not found at path: [nope]") = false ∧
    Err.isValidationErr (.validation "tag not found at path: [nope]") = true := by
  refine ⟨?_, ?_, ?_⟩ <;> rfl

/-- C2 (amended): `UpdateTag` fails with a ValidationError — not a
NotFoundError — whose message is `tag not found at path: ...` when no
location's path equals `options.TagPath` (equality being segment-wise,
order- and length-sensitive) and `CreateIfMissing` is false; it fails with a
ValidationError when the new value is empty or longer than
`MaxTagValueLength` (256) bytes, the oversized-value failure holding for
every parse result because both value checks precede the path lookup. -/
theorem c2_update_tag_checks (pr : ParseResult) (opts : UpdateOptions) :
    (opts.NewValue = "" →
      updateTag pr opts = .error (.validation "new tag value cannot be empty")) ∧
    (MaxTagValueLength < goLen opts.NewValue →
      updateTag pr opts = .error (.validation ("tag value too long: " ++
        toString (goLen opts.NewValue) ++ " characters (max " ++
        toString MaxTagValueLength ++ ")"))) ∧
    (findTagByPath pr opts.TagPath = none → opts.CreateIfMissing = false →
      opts.NewValue ≠ "" → goLen opts.NewValue ≤ MaxTagValueLength →
      updateTag pr opts
        = .error (.validation ("tag not found at path: " ++ fmtStrs opts.TagPath))) ∧
    (∀ p q : List String, pathsEqual p q = true ↔ p = q) := by
  refine ⟨?_, ?_, ?_, pathsEqual_iff⟩
  · intro h
    simp [updateTag, h]
  · intro h
    have hne : opts.NewValue ≠ "" := by
      intro he
      rw [he] at h
      have : goLen "" = 0 := rfl
      omega
    simp [updateTag, hne, h]
  · intro h1 h2 h3 h4
    simp [updateTag, h3, Nat.not_lt.mpr h4, h1, h2]

set_option maxRecDepth 4000 in
/-- C2 witness: the three failure modes at concrete inputs. -/
theorem c2_witness :
    updateTag ⟨.scalar "x", [], "x", true, []⟩ ⟨["tag"], "", false, false⟩
      = .error (.validation "new tag value cannot be empty") ∧
    updateTag ⟨.scalar "x", [], "x", true, []⟩
        ⟨["tag"], ⟨List.replicate 300 'a'⟩, false, false⟩
      = .error (.validation ("tag value too long: " ++
          toString (goLen ⟨List.replicate 300 'a'⟩) ++ " characters (max " ++
          toString MaxTagValueLength ++ ")")) ∧
    updateTag ⟨.scalar "x", [], "x", true, []⟩ ⟨["nope"], "v2", false, false⟩
      = .error (.validation ("tag not found at path: " ++ fmtStrs ["nope"])) :=
  ⟨(c2_update_tag_checks _ _).1 rfl,
   (c2_update_tag_checks _ _).2.1 (by decide),
   (c2_update_tag_checks _ _).2.2.1 rfl rfl (by decide) (by decide)⟩

/-- C3: `UpdateTagSimple` re-parses the content and probes the fixed,
ordered conventional path list; it applies the update (through `UpdateTag`)
at the first probed path present among the detected locations, and fails
with the fixed ValidationError when none of the probed paths is present. -/
theorem c3_update_tag_simple (content newTag : String) (pr : ParseResult)
    (hparse : parseContent content = .ok pr) :
    (∀ p, firstCommonPath pr = some p →
      updateTagSimple content newTag = updateTag pr ⟨p, newTag, false, false⟩) ∧
    (firstCommonPath pr = none →
      updateTagSimple content newTag
        = .error (.validation "no suitable tag field found in YAML content")) := by
  constructor
  · intro p hp
    simp only [updateTagSimple, hparse, probe_eq_find]
    rw [show commonTagPaths.find? (fun q => (findTagByPath pr q).isSome) = some p from hp]
  · intro hp
    simp only [updateTagSimple, hparse, probe_eq_find]
    rw [show commonTagPaths.find? (fun q => (findTagByPath pr q).isSome) = none from hp]

/-- C3 witness: on `tag: v1` the first probed path `["tag"]` is applied; on
`name: only` no probed path exists and the fixed ValidationError is
returned. -/
theorem c3_witness :
    updateTagSimple "tag: v1\n" "v2" =
      updateTag ⟨.document [.mapping [("tag", .scalar "v1")]],
        [⟨["tag"], "v1", [0, 0]⟩], "tag: v1\n", true, []⟩ ⟨["tag"], "v2", false, false⟩ ∧
    updateTagSimple "name: only\n" "v2"
      = .error (.validation "no suitable tag field found in YAML content") :=
  ⟨(c3_update_tag_simple "tag: v1\n" "v2" _ rfl).1 ["tag"] rfl,
   (c3_update_tag_simple "name: only\n" "v2"
      ⟨.document [.mapping [("name", .scalar "only")]], [], "name: only\n", true, []⟩ rfl).2 rfl⟩

/-- C4 counterexample: the field `app: my-tagged` is classified tag-like by
the code (the value heuristic checks the VALUE for `tag`/`version`), and a
location for it is appended, while the claim's classification — which
requires the KEY to also contain `tag`/`version`/`image` in clause (b) —
rejects it. -/
theorem c4_counterexample :
    isTagField "app" (.scalar "my-tagged") = true ∧
    claimTagField "app" (.scalar "my-tagged") = false ∧
    (match parseContent "app: my-tagged\n" with
     | .ok pr => pr.TagLocations
     | .error _ => []) = [⟨["app"], "my-tagged", [0, 0]⟩] := by
  refine ⟨?_, ?_, ?_⟩ <;> rfl

/-- C4 (amended): a mapping field is classified tag-like — and appended to
the locations list in traversal order, the list being exactly the pre-order
field enumeration filtered by the heuristic — iff its value is a scalar and
either (a) the lower-cased key contains `tag`, `version`, `image` or
`release`, or (b) the lower-cased VALUE contains `v`, `.v` or `-` and
additionally contains `tag` or `version` (or the raw key contains `image`,
a disjunct subsumed by (a)). -/
theorem c4_locations_characterization :
    (∀ k v, isTagField k v = amendedTagField k v) ∧
    (∀ t path addr, findTagLocations t path addr
      = (fieldsNode t path addr).filterMap locFilter) := by
  constructor
  · intro k v
    cases v with
    | scalar sv =>
      simp only [isTagField, amendedTagField, keyMatch]
      cases h1 : (goContains (goToLower k) "tag" || goContains (goToLower k) "version" ||
          goContains (goToLower k) "image" || goContains (goToLower k) "release")
      · simp only [h1, if_false, Bool.false_or]
        cases h2 : (goContains (goToLower sv) "v" || goContains (goToLower sv) ".v" ||
            goContains (goToLower sv) "-")
        · simp [h2]
        · simp [h2]
      · simp [h1]
    | mapping ps => rfl
    | sequence items => rfl
    | document cs => rfl
  · exact locsNode_eq

/-- C10: `autoDetectTagPath` (invoked by `UpdateTagInFile` when
`TagPath` is empty) selects the first detected location whose final path
segment lower-cases to `tag`; failing that, to `version`; failing that, to
`image`; failing that, the first detected location; and it fails with a
ValidationError when no locations were detected. -/
theorem c10_auto_detect (pr : ParseResult) :
    (pr.TagLocations = [] →
      autoDetectTagPath pr = .error (.validation "no tag fields found in YAML content")) ∧
    (∀ loc,
      pr.TagLocations.find? (fun l => !l.path.isEmpty && goToLower (l.path.getLastD "") == "tag")
        = some loc →
      autoDetectTagPath pr = .ok loc.path) ∧
    (∀ loc,
      pr.TagLocations.find? (fun l => !l.path.isEmpty && goToLower (l.path.getLastD "") == "tag")
        = none →
      pr.TagLocations.find?
          (fun l => !l.path.isEmpty && goToLower (l.path.getLastD "") == "version")
        = some loc →
      autoDetectTagPath pr = .ok loc.path) ∧
    (∀ loc,
      pr.TagLocations.find? (fun l => !l.path.isEmpty && goToLower (l.path.getLastD "") == "tag")
        = none →
      pr.TagLocations.find?
          (fun l => !l.path.isEmpty && goToLower (l.path.getLastD "") == "version")
        = none →
      pr.TagLocations.find? (fun l => !l.path.isEmpty && goToLower (l.path.getLastD "") == "image")
        = some loc →
      autoDetectTagPath pr = .ok loc.path) ∧
    (∀ loc rest,
      pr.TagLocations.find? (fun l => !l.path.isEmpty && goToLower (l.path.getLastD "") == "tag")
        = none →
      pr.TagLocations.find?
          (fun l => !l.path.isEmpty && goToLower (l.path.getLastD "") == "version")
        = none →
      pr.TagLocations.find? (fun l => !l.path.isEmpty && goToLower (l.path.getLastD "") == "image")
        = none →
      pr.TagLocations = loc :: rest →
      autoDetectTagPath pr = .ok loc.path) := by
  have hne : ∀ (loc : TagLoc) (f : TagLoc → Bool),
      pr.TagLocations.find? f = some loc → pr.TagLocations.isEmpty = false := by
    intro loc f h
    have := List.mem_of_find?_eq_some h
    cases hl : pr.TagLocations with
    | nil => rw [hl] at this; simp at this
    | cons a as => simp
  refine ⟨?_, ?_, ?_, ?_, ?_⟩
  · intro h
    simp [autoDetectTagPath, h]
  · intro loc h
    simp only [autoDetectTagPath, hne loc _ h, Bool.false_eq_true, if_false,
      findPreferred, preferredTagNames, h]
  · intro loc h1 h2
    simp only [autoDetectTagPath, hne loc _ h2, Bool.false_eq_true, if_false,
      findPreferred, preferredTagNames, h1, h2]
  · intro loc h1 h2 h3
    simp only [autoDetectTagPath, hne loc _ h3, Bool.false_eq_true, if_false,
      findPreferred, preferredTagNames, h1, h2, h3]
  · intro loc rest h1 h2 h3 hl
    simp only [autoDetectTagPath, hl, findPreferred, preferredTagNames, List.isEmpty_cons,
      Bool.false_eq_true, if_false]
    rw [← hl] at *
    simp only [findPreferred, h1, h2, h3, hl]

/-- C10 witness: a single location ending in `version` is selected through
the second preference. -/
theorem c10_witness :
    autoDetectTagPath ⟨.scalar "", [⟨["app", "version"], "1", [0, 1]⟩], "", true, []⟩
      = .ok ["app", "version"] :=
  (c10_auto_detect _).2.2.1 ⟨["app", "version"], "1", [0, 1]⟩ rfl rfl

/-- String concatenation acts as list concatenation on the character data. -/
theorem strData_append (s t : String) : (s ++ t).data = s.data ++ t.data := rfl

/-- An atomic write touches only the target path and its sibling temporary
path. -/
theorem writeFileAtomic_untouched (orc : FSOracle) (fs : FS) (p c q : String)
    (h1 : q ≠ tempPathFor p) (h2 : q ≠ p) :
    (writeFileAtomic orc fs p c).1 q = fs q := by
  unfold writeFileAtomic
  cases hw : orc.writeOk (tempPathFor p)
  · simp [hw]
  · simp only [hw, if_true]
    cases hr : orc.renameOk (tempPathFor p) p <;>
      simp [hr, fsRename, fsRemove, fsWrite, h1, h2]

/-- A validated write touches only the cleaned target path and its sibling
temporary path. -/
theorem writeFile_untouched (cfg : Updater) (orc : FSOracle) (fs : FS) (p c cp q : String)
    (hv : validateAndCleanFilePath p = .ok cp)
    (h1 : q ≠ tempPathFor cp) (h2 : q ≠ cp) :
    (writeFile cfg orc fs p c).1 q = fs q := by
  unfold writeFile
  rw [hv]
  cases ha : cfg.atomicWrite
  · simp only [ha, Bool.false_eq_true, if_false]
    cases hw : orc.writeOk cp <;> simp [hw, fsWrite, h2]
  · simp only [ha, if_true]
    exact writeFileAtomic_untouched orc fs cp c q h1 h2

/-- The filesystem resulting from `createBackup` is that of its inner
validated write to the computed backup path. -/
theorem createBackup_fst (cfg : Updater) (orc : FSOracle) (fs : FS) (f c ts : String) :
    (createBackup cfg orc fs f c ts).1
      = (writeFile cfg orc fs (backupPathFor cfg f ts) c).1 := by
  unfold createBackup
  rcases h : writeFile cfg orc fs (backupPathFor cfg f ts) c with ⟨fs1, oe⟩
  cases oe <;> simp [h]

/-- C7: on rename failure, `writeFileAtomic` reports a `FileSystemError`,
the original file's bytes are unchanged, the temporary file does not remain,
and no other path is affected.  (The temporary path is the sibling
`Join(Dir(path), Base(path) + ".tmp")`; `os.Remove` of the just-written
temporary file is modelled as succeeding, matching the code's discarded
removal error.) -/
theorem c7_atomic_write_rename_failure (orc : FSOracle) (fs : FS) (filePath content : String)
    (hw : orc.writeOk (tempPathFor filePath) = true)
    (hr : orc.renameOk (tempPathFor filePath) filePath = false)
    (hne : tempPathFor filePath ≠ filePath) :
    (writeFileAtomic orc fs filePath content).2
      = some (.fileSystem "failed to rename temporary file") ∧
    (writeFileAtomic orc fs filePath content).1 filePath = fs filePath ∧
    (writeFileAtomic orc fs filePath content).1 (tempPathFor filePath) = none ∧
    (∀ q, q ≠ tempPathFor filePath →
      (writeFileAtomic orc fs filePath content).1 q = fs q) := by
  have hne2 : filePath ≠ tempPathFor filePath := Ne.symm hne
  refine ⟨?_, ?_, ?_, ?_⟩
  · simp [writeFileAtomic, hw, hr]
  · simp [writeFileAtomic, hw, hr, fsRemove, fsWrite, hne2]
  · simp [writeFileAtomic, hw, hr, fsRemove]
  · intro q hq
    simp [writeFileAtomic, hw, hr, fsRemove, fsWrite, hq]

/-- C7 witness: a rename-refusing oracle over a file `config/app.yaml`. -/
theorem c7_witness :
    (writeFileAtomic ⟨fun _ => true, fun _ _ => false⟩
        (fsWrite fsEmpty "config/app.yaml" "tag: old\n") "config/app.yaml" "tag: new\n").2
      = some (.fileSystem "failed to rename temporary file") ∧
    (writeFileAtomic ⟨fun _ => true, fun _ _ => false⟩
        (fsWrite fsEmpty "config/app.yaml" "tag: old\n") "config/app.yaml" "tag: new\n").1
        "config/app.yaml"
      = fsWrite fsEmpty "config/app.yaml" "tag: old\n" "config/app.yaml" ∧
    (writeFileAtomic ⟨fun _ => true, fun _ _ => false⟩
        (fsWrite fsEmpty "config/app.yaml" "tag: old\n") "config/app.yaml" "tag: new\n").1
        (tempPathFor "config/app.yaml")
      = none := by
  have h := c7_atomic_write_rename_failure ⟨fun _ => true, fun _ _ => false⟩
    (fsWrite fsEmpty "config/app.yaml" "tag: old\n") "config/app.yaml" "tag: new\n"
    rfl rfl (by decide)
  exact ⟨h.1, h.2.1, h.2.2.1⟩

/-- C8: `RollbackFromBackup` fails with the file-not-found error when the
backup file is missing; and when the backup's content fails YAML syntax
validation it fails with the wrapping error and the filesystem — in
particular the live file — is returned unchanged, no write having been
performed. -/
theorem c8_rollback_guards (cfg : Updater) (orc : FSOracle) (fs : FS)
    (filePath backupPath : String)
    (hfp : filePath ≠ "") (hbp : backupPath ≠ "") :
    (fileExists fs backupPath = false →
      rollbackFromBackup cfg orc fs filePath backupPath
        = (fs, some (.fileNotFound backupPath))) ∧
    (∀ bp c e,
      validateAndCleanFilePath backupPath = .ok bp →
      validateAndCleanFilePath bp = .ok bp →
      fs bp = some c →
      validateYAML c = some e →
      rollbackFromBackup cfg orc fs filePath backupPath
        = (fs, some (.wrap "backup file contains invalid YAML" e))) := by
  constructor
  · intro hmiss
    simp [rollbackFromBackup, hfp, hbp, hmiss]
  · intro bp c e hv hv2 hc hinv
    have hex : fileExists fs backupPath = true := by
      simp [fileExists, hv, hc]
    have hex2 : fileExists fs bp = true := by
      simp [fileExists, hv2, hc]
    have hread : readFile fs backupPath = .ok c := by
      simp [readFile, hv, hex2, hc]
    simp [rollbackFromBackup, hfp, hbp, hex, hread, hinv]

/-- C8 witness: a missing backup, and a backup holding `[invalid` which
fails syntax validation with the live file untouched. -/
theorem c8_witness :
    rollbackFromBackup NewUpdater allOk (fsWrite fsEmpty "b.yaml" "[invalid\n")
        "app.yaml" "missing.yaml"
      = (fsWrite fsEmpty "b.yaml" "[invalid\n", some (.fileNotFound "missing.yaml")) ∧
    rollbackFromBackup NewUpdater allOk (fsWrite fsEmpty "b.yaml" "[invalid\n")
        "app.yaml" "b.yaml"
      = (fsWrite fsEmpty "b.yaml" "[invalid\n",
         some (.wrap "backup file contains invalid YAML" (.invalidYAML "invalid YAML syntax"))) := by
  constructor
  · exact (c8_rollback_guards NewUpdater allOk (fsWrite fsEmpty "b.yaml" "[invalid\n")
      "app.yaml" "missing.yaml" (by decide) (by decide)).1 rfl
  · exact (c8_rollback_guards NewUpdater allOk (fsWrite fsEmpty "b.yaml" "[invalid\n")
      "app.yaml" "b.yaml" (by decide) (by decide)).2 "b.yaml" "[invalid\n"
      (.invalidYAML "invalid YAML syntax") rfl rfl rfl rfl

/-- C9 counterexample: two `createBackup` calls in the same formatted-
timestamp second compute the same backup path, and the second call writes to
the already-existing backup file, overwriting its content (`tag: v0` becomes
`tag: v1`) — backups are not write-once. -/
theorem c9_counterexample :
    (createBackup NewUpdater allOk (fsWrite fsEmpty "app.yaml" "tag: v0\n")
        "app.yaml" "tag: v0\n" "20250101_120000").2
      = .ok "app.yaml.20250101_120000.backup" ∧
    (createBackup NewUpdater allOk (fsWrite fsEmpty "app.yaml" "tag: v0\n")
        "app.yaml" "tag: v0\n" "20250101_120000").1
        "app.yaml.20250101_120000.backup" = some "tag: v0\n" ∧
    (createBackup NewUpdater allOk
        ((createBackup NewUpdater allOk (fsWrite fsEmpty "app.yaml" "tag: v0\n")
            "app.yaml" "tag: v0\n" "20250101_120000").1)
        "app.yaml" "tag: v1\n" "20250101_120000").1
        "app.yaml.20250101_120000.backup" = some "tag: v1\n" := by
  refine ⟨?_, ?_, ?_⟩ <;> rfl

/-- C9 (amended): backup paths are derived deterministically from the
original filename and the formatted timestamp; with sibling backups
(no backup directory configured) two timestamps that differ yield distinct
backup paths, and a later `createBackup` under a different timestamp leaves
an existing backup untouched; only within the one-second granularity of
`BackupTimestampFormat` can a later backup overwrite an earlier one. -/
theorem c9_backup_write_once_per_timestamp (cfg : Updater) (orc : FSOracle) (fs : FS)
    (f c2 ts1 ts2 : String)
    (hdir : cfg.backupDir = "") (hts : ts1 ≠ ts2) :
    backupPathFor cfg f ts1 ≠ backupPathFor cfg f ts2 ∧
    (validateAndCleanFilePath (backupPathFor cfg f ts2)
        = .ok (backupPathFor cfg f ts2) →
     tempPathFor (backupPathFor cfg f ts2) ≠ backupPathFor cfg f ts1 →
     (createBackup cfg orc fs f c2 ts2).1 (backupPathFor cfg f ts1)
       = fs (backupPathFor cfg f ts1)) := by
  have hb : (cfg.backupDir != "") = false := by simp [hdir]
  have hneq : backupPathFor cfg f ts1 ≠ backupPathFor cfg f ts2 := by
    intro heq
    apply hts
    simp only [backupPathFor, hb, Bool.false_eq_true, if_false] at heq
    have hd := congrArg String.data heq
    simp only [strData_append] at hd
    have h1 := List.append_cancel_right hd
    have h2 := List.append_cancel_left h1
    cases ts1
    cases ts2
    exact congrArg String.mk h2
  refine ⟨hneq, ?_⟩
  intro hv htne
  rw [createBackup_fst]
  exact writeFile_untouched cfg orc fs (backupPathFor cfg f ts2) c2
    (backupPathFor cfg f ts2) (backupPathFor cfg f ts1) hv (Ne.symm htne) hneq

/-- C9 witness: distinct-second timestamps give distinct sibling backup
paths and preserve the earlier backup. -/
theorem c9_witness :
    backupPathFor NewUpdater "app.yaml" "20250101_120000"
      ≠ backupPathFor NewUpdater "app.yaml" "20250101_120001" ∧
    (createBackup NewUpdater allOk
        (fsWrite fsEmpty (backupPathFor NewUpdater "app.yaml" "20250101_120000") "tag: v0\n")
        "app.yaml" "tag: v1\n" "20250101_120001").1
        (backupPathFor NewUpdater "app.yaml" "20250101_120000")
      = fsWrite fsEmpty (backupPathFor NewUpdater "app.yaml" "20250101_120000") "tag: v0\n"
          (backupPathFor NewUpdater "app.yaml" "20250101_120000") := by
  have h := c9_backup_write_once_per_timestamp NewUpdater allOk
    (fsWrite fsEmpty (backupPathFor NewUpdater "app.yaml" "20250101_120000") "tag: v0\n")
    "app.yaml" "tag: v1\n" "20250101_120000" "20250101_120001" rfl (by decide)
  exact ⟨h.1, h.2 rfl (by decide)⟩

/-- `takeWhile` never lengthens a list. -/
theorem takeWhile_len_le (f : α → Bool) : ∀ xs : List α, (xs.takeWhile f).length ≤ xs.length := by
  intro xs
  induction xs with
  | nil => simp
  | cons a as ih =>
    simp only [List.takeWhile]
    cases f a
    · simp
    · simpa using Nat.succ_le_succ ih

/-- `dropWhile` never lengthens a list. -/
theorem dropWhile_len_le (f : α → Bool) : ∀ xs : List α, (xs.dropWhile f).length ≤ xs.length := by
  intro xs
  induction xs with
  | nil => simp
  | cons a as ih =>
    simp only [List.dropWhile]
    cases f a
    · simp
    · simpa using Nat.le_succ_of_le ih

/-- Any fuel at least the number of lines gives the same parse. -/
theorem parseBlockF_congr : ∀ (f1 f2 : Nat) (lines : List Line) (n : Nat),
    lines.length ≤ f1 → lines.length ≤ f2 →
    parseBlockF f1 lines n = parseBlockF f2 lines n := by
  intro f1
  induction f1 with
  | zero =>
    intro f2 lines n h1 h2
    cases lines with
    | nil => cases f2 <;> rfl
    | cons l rest => simp at h1
  | succ f1 ih =>
    intro f2 lines n h1 h2
    cases lines with
    | nil => cases f2 <;> rfl
    | cons l rest =>
      cases f2 with
      | zero => simp at h2
      | succ f2 =>
        have hr1 : rest.length ≤ f1 := by simpa using h1
        have hr2 : rest.length ≤ f2 := by simpa using h2
        have e1 := ih f2 rest n hr1 hr2
        have e2 := ih f2 (rest.takeWhile fun l2 => n < l2.indent) (n + 2)
          (le_trans (takeWhile_len_le _ rest) hr1) (le_trans (takeWhile_len_le _ rest) hr2)
        have e3 := ih f2 (rest.dropWhile fun l2 => n < l2.indent) n
          (le_trans (dropWhile_len_le _ rest) hr1) (le_trans (dropWhile_len_le _ rest) hr2)
        simp only [parseBlockF, e1, e2, e3]

/-- `parseBlock` on the empty block. -/
theorem parseBlock_nil (n : Nat) : parseBlock [] n = some [] := rfl

/-- One-step unfolding of `parseBlock`. -/
theorem parseBlock_cons (l : Line) (rest : List Line) (n : Nat) :
    parseBlock (l :: rest) n =
      (if l.indent = n then
        match l.val with
        | some v =>
          match parseBlock rest n with
          | some ps => some ((l.key, .scalar v) :: ps)
          | none => none
        | none =>
          if (rest.takeWhile fun l2 => n < l2.indent).isEmpty then none
          else
            match parseBlock (rest.takeWhile fun l2 => n < l2.indent) (n + 2),
                  parseBlock (rest.dropWhile fun l2 => n < l2.indent) n with
            | some inner, some ps => some ((l.key, .mapping inner) :: ps)
            | _, _ => none
      else none) := by
  show parseBlockF (l :: rest).length (l :: rest) n = _
  have e2 := parseBlockF_congr rest.length (rest.takeWhile fun l2 => n < l2.indent).length
    (rest.takeWhile fun l2 => n < l2.indent) (n + 2) (takeWhile_len_le _ rest) (le_refl _)
  have e3 := parseBlockF_congr rest.length (rest.dropWhile fun l2 => n < l2.indent).length
    (rest.dropWhile fun l2 => n < l2.indent) n (dropWhile_len_le _ rest) (le_refl _)
  simp only [List.length_cons, parseBlockF, e2, e3]
  rfl

/-- Splitting a newline-free chunk followed by a newline peels off one
line. -/
theorem splitAux_append : ∀ (body : List Char), (∀ ch ∈ body, (ch == '\n') = false) →
    ∀ (acc rest : List Char),
    splitLinesAux acc (body ++ '\n' :: rest)
      = (splitLinesAux [] rest).map (fun ls => (acc.reverse ++ body) :: ls) := by
  intro body
  induction body with
  | nil =>
    intro _ acc rest
    simp [splitLinesAux]
  | cons c cs ih =>
    intro hb acc rest
    have hc : (c == '\n') = false := hb c (by simp)
    have hcs : ∀ ch ∈ cs, (ch == '\n') = false := fun ch hm => hb ch (by simp [hm])
    simp only [List.cons_append, splitLinesAux, hc, Bool.false_eq_true, if_false]
    simpa [List.reverse_cons, List.append_assoc] using ih hcs (c :: acc) rest

/-- Components of a wellformed key. -/
theorem keyOK_parts (k : String) (h : keyOK k = true) :
    k.data ≠ [] ∧ (∀ c ∈ k.data, (c != ':') = true ∧ (c != '\n') = true) ∧
      (∀ c cs, k.data = c :: cs → (c == ' ') = false) := by
  unfold keyOK at h
  cases hd : k.data with
  | nil => rw [hd] at h; simp at h
  | cons c cs =>
    rw [hd] at h
    simp only [Bool.and_eq_true, List.all_eq_true, Bool.and_eq_true] at h
    refine ⟨by simp, ?_, ?_⟩
    · intro x hx
      exact h.2 x hx
    · intro c2 cs2 he
      injection he with h1 _
      subst h1
      have h2 : c ≠ ' ' := by simpa using h.1
      simpa using h2

/-- A wellformed key is not the empty string. -/
theorem keyOK_ne_empty (k : String) (h : keyOK k = true) : k ≠ "" := by
  intro he
  have := (keyOK_parts k h).1
  rw [he] at this
  exact this rfl

/-- Lexing inverts rendering on one line body (the rendered line without its
trailing newline). -/
theorem lexLine_render (l : Line) (h : LineOK l = true) :
    lexLine (List.replicate l.indent ' ' ++ l.key.data ++ [':'] ++
      (match l.val with | some v => ' ' :: v.data | none => [])) = some l := by
  obtain ⟨ind, key, val⟩ := l
  have hk : keyOK key = true := by
    unfold LineOK at h
    simp only [Bool.and_eq_true] at h
    exact h.1
  obtain ⟨hkne, hkall, hkhead⟩ := keyOK_parts key hk
  obtain ⟨c, cs, hkd⟩ : ∃ c cs, key.data = c :: cs := by
    cases hd : key.data with
    | nil => exact absurd hd hkne
    | cons c cs => exact ⟨c, cs, rfl⟩
  have hsp : ∀ a ∈ List.replicate ind ' ', ((fun a => a == ' ') a : Bool) = true := by
    intro a ha
    rw [List.eq_of_mem_replicate ha]
    rfl
  have hkc : (c == ' ') = false := hkhead c cs hkd
  have hkcolon : ∀ a ∈ key.data, ((fun a => a != ':') a : Bool) = true :=
    fun a ha => (hkall a ha).1
  have hke : key.data.isEmpty = false := by
    rw [hkd]
    rfl
  have heta : ⟨key.data⟩ = key := rfl
  cases val with
  | none =>
    have h1 : List.takeWhile (fun a => a == ' ')
        (List.replicate ind ' ' ++ key.data ++ [':'] ++ ([] : List Char))
        = List.replicate ind ' ' := by
      rw [List.append_nil, List.append_assoc, List.takeWhile_append_of_pos hsp, hkd]
      simp [List.takeWhile_cons, hkc]
    have h2 : List.dropWhile (fun a => a == ' ')
        (List.replicate ind ' ' ++ key.data ++ [':'] ++ ([] : List Char))
        = key.data ++ [':'] := by
      rw [List.append_nil, List.append_assoc, List.dropWhile_append_of_pos hsp, hkd]
      simp [List.dropWhile_cons, hkc]
    have h3 : List.takeWhile (fun a => a != ':') (key.data ++ [':']) = key.data := by
      rw [List.takeWhile_append_of_pos hkcolon]
      simp
    have h4 : List.dropWhile (fun a => a != ':') (key.data ++ [':']) = [':'] := by
      rw [List.dropWhile_append_of_pos hkcolon]
      rfl
    simp only [lexLine, h1, h2, h3, h4, hke, Bool.false_eq_true, if_false,
      List.length_replicate, heta]
  | some v =>
    have h1 : List.takeWhile (fun a => a == ' ')
        (List.replicate ind ' ' ++ key.data ++ [':'] ++ (' ' :: v.data))
        = List.replicate ind ' ' := by
      rw [List.append_assoc, List.append_assoc, List.takeWhile_append_of_pos hsp, hkd]
      simp [List.takeWhile_cons, hkc]
    have h2 : List.dropWhile (fun a => a == ' ')
        (List.replicate ind ' ' ++ key.data ++ [':'] ++ (' ' :: v.data))
        = key.data ++ ([':'] ++ (' ' :: v.data)) := by
      rw [List.append_assoc, List.append_assoc, List.dropWhile_append_of_pos hsp, hkd]
      simp [List.dropWhile_cons, hkc]
    have h3 : List.takeWhile (fun a => a != ':') (key.data ++ ([':'] ++ (' ' :: v.data)))
        = key.data := by
      rw [List.takeWhile_append_of_pos hkcolon]
      simp
    have h4 : List.dropWhile (fun a => a != ':') (key.data ++ ([':'] ++ (' ' :: v.data)))
        = ':' :: ' ' :: v.data := by
      rw [List.dropWhile_append_of_pos hkcolon]
      rfl
    have hveta : (⟨v.data⟩ : String) = v := rfl
    simp only [lexLine, h2, h3, h4, hke, Bool.false_eq_true, if_false, heta, hveta]
    simp only [List.append_assoc, List.singleton_append, List.cons_append] at h1 ⊢
    rw [h1]
    simp

/-- A rendered line is its body plus a trailing newline. -/
theorem renderLine_body (l : Line) : renderLine l =
    (List.replicate l.indent ' ' ++ l.key.data ++ [':'] ++
      (match l.val with | some v => ' ' :: v.data | none => [])) ++ ['\n'] := by
  obtain ⟨ind, key, val⟩ := l
  cases val <;> simp [renderLine, List.append_assoc]

/-- The body of a wellformed rendered line contains no newline. -/
theorem renderBody_no_newline (l : Line) (h : LineOK l = true) :
    ∀ ch ∈ (List.replicate l.indent ' ' ++ l.key.data ++ [':'] ++
      (match l.val with | some v => ' ' :: v.data | none => [])), (ch == '\n') = false := by
  obtain ⟨ind, key, val⟩ := l
  have hk : keyOK key = true := by
    unfold LineOK at h
    simp only [Bool.and_eq_true] at h
    exact h.1
  obtain ⟨_, hkall, _⟩ := keyOK_parts key hk
  have hkey : ∀ ch ∈ key.data, (ch == '\n') = false := by
    intro ch hm
    have h2 : ch ≠ '\n' := by simpa using (hkall ch hm).2
    simpa using h2
  cases val with
  | none =>
    intro ch hch
    simp only [List.append_nil, List.append_assoc, List.mem_append, List.mem_cons,
      List.not_mem_nil, or_false, List.mem_replicate] at hch
    have hor : ch = ' ' ∨ ch ∈ key.data ∨ ch = ':' := by tauto
    rcases hor with hm | hm | hm
    · rw [hm]; rfl
    · exact hkey ch hm
    · rw [hm]; rfl
  | some v =>
    have hvok : valOK v = true := by
      unfold LineOK at h
      simp only [Bool.and_eq_true] at h
      exact h.2
    have hval : ∀ ch ∈ v.data, (ch == '\n') = false := by
      intro ch hm
      unfold valOK at hvok
      simp only [List.all_eq_true] at hvok
      have h2 : ch ≠ '\n' := by simpa using hvok ch hm
      simpa using h2
    intro ch hch
    simp only [List.append_assoc, List.mem_append, List.mem_cons,
      List.not_mem_nil, or_false, List.mem_replicate] at hch
    have hor : ch = ' ' ∨ ch ∈ key.data ∨ ch = ':' ∨ ch ∈ v.data := by tauto
    rcases hor with hm | hm | hm | hm
    · rw [hm]; rfl
    · exact hkey ch hm
    · rw [hm]; rfl
    · exact hval ch hm

/-- Lexing inverts rendering on a wellformed line list. -/
theorem lexAll_render : ∀ ls : List Line, (∀ l ∈ ls, LineOK l = true) →
    lexAll (renderAll ls) = some ls := by
  intro ls
  induction ls with
  | nil => intro _; rfl
  | cons l ls ih =>
    intro h
    have hl : LineOK l = true := h l (by simp)
    have hls : ∀ x ∈ ls, LineOK x = true := fun x hx => h x (List.mem_cons_of_mem _ hx)
    unfold lexAll
    rw [show renderAll (l :: ls) = renderLine l ++ renderAll ls from by simp [renderAll],
      renderLine_body l, List.append_assoc, List.singleton_append,
      splitAux_append _ (renderBody_no_newline l hl) [] (renderAll ls)]
    have ihu := ih hls
    unfold lexAll at ihu
    cases hs : splitLinesAux [] (renderAll ls) with
    | none => rw [hs] at ihu; simp at ihu
    | some bs =>
      rw [hs] at ihu
      simp only [Option.some_bind] at ihu
      have hlex := lexLine_render l hl
      simp only [List.append_assoc] at hlex
      simp only [Option.map_some', Option.some_bind, List.reverse_nil, List.nil_append,
        List.append_assoc, lexList, hlex, ihu]

mutual

/-- Every line of a serialized wellformed mapping is wellformed and at least
as deep as the block's indentation. -/
theorem flattenPairs_lines_ok : (ps : List (String × YamlNode)) → (n : Nat) →
    wfPairs ps = true → ∀ l ∈ flattenPairs ps n, LineOK l = true ∧ n ≤ l.indent
  | [], _, _ => by
    intro l hl
    simp [flattenPairs] at hl
  | (k, v) :: ps, n, h => by
    have h3 := h
    simp only [wfPairs, Bool.and_eq_true] at h3
    have hk : keyOK k = true := by tauto
    have hv2 : wfNode v = true := by tauto
    have hps : wfPairs ps = true := by tauto
    intro l hl
    rw [show flattenPairs ((k, v) :: ps) n = flattenPair k v n ++ flattenPairs ps n from by
      simp [flattenPairs]] at hl
    rcases List.mem_append.mp hl with hm | hm
    · exact flattenPair_lines_ok k v n hk hv2 l hm
    · exact flattenPairs_lines_ok ps n hps l hm

/-- Every line of one serialized wellformed pair is wellformed and at least
as deep as the pair's indentation. -/
theorem flattenPair_lines_ok : (k : String) → (v : YamlNode) → (n : Nat) →
    keyOK k = true → wfNode v = true → ∀ l ∈ flattenPair k v n, LineOK l = true ∧ n ≤ l.indent
  | k, .scalar sv, n, hk, hv => by
    intro l hl
    simp only [flattenPair, List.mem_singleton] at hl
    subst hl
    refine ⟨?_, le_refl n⟩
    have hsv : valOK sv = true := hv
    simp [LineOK, hk, hsv]
  | k, .mapping qs, n, hk, hv => by
    intro l hl
    have hqs : wfPairs qs = true := by
      have h2 := hv
      simp only [wfNode, Bool.and_eq_true] at h2
      tauto
    simp only [flattenPair, List.mem_cons] at hl
    rcases hl with hm | hm
    · subst hm
      refine ⟨?_, le_refl n⟩
      simp [LineOK, hk]
    · have h4 := flattenPairs_lines_ok qs (n + 2) hqs l hm
      exact ⟨h4.1, by omega⟩
  | _, .sequence _, _, _, hv => by
    intro l hl
    simp [wfNode] at hv
  | _, .document _, _, _, hv => by
    intro l hl
    simp [wfNode] at hv

end

/-- A serialized wellformed pair starts with a line at the block's
indentation carrying the pair's key. -/
theorem flattenPair_head (k : String) (v : YamlNode) (n : Nat) (hv : wfNode v = true) :
    ∃ o ls', flattenPair k v n = Line.mk n k o :: ls' := by
  cases v with
  | scalar sv => exact ⟨some sv, [], rfl⟩
  | mapping qs => exact ⟨none, flattenPairs qs (n + 2), rfl⟩
  | sequence xs => simp [wfNode] at hv
  | document cs => simp [wfNode] at hv

/-- A serialized wellformed non-empty mapping starts with a line at the
block's indentation. -/
theorem flattenPairs_cons_head (k : String) (v : YamlNode) (ps : List (String × YamlNode))
    (n : Nat) (hv : wfNode v = true) :
    ∃ o ls', flattenPairs ((k, v) :: ps) n = Line.mk n k o :: ls' := by
  obtain ⟨o, ls', he⟩ := flattenPair_head k v n hv
  refine ⟨o, ls' ++ flattenPairs ps n, ?_⟩
  rw [show flattenPairs ((k, v) :: ps) n = flattenPair k v n ++ flattenPairs ps n from by
    simp [flattenPairs], he]
  simp

/-- A serialized block at indentation `n`, followed by a terminator line no
deeper than `n`, starts with a line not deeper than `n`: the strictly-deeper
span taken at `n` is empty. -/
theorem flatten_then_stop (ps : List (String × YamlNode)) (n : Nat) (rest : List Line)
    (hps : wfPairs ps = true)
    (hrest : rest = [] ∨ ∃ l0 rest', rest = l0 :: rest' ∧ l0.indent ≤ n) :
    (flattenPairs ps n ++ rest).takeWhile (fun l2 => n < l2.indent) = [] ∧
    (flattenPairs ps n ++ rest).dropWhile (fun l2 => n < l2.indent)
      = flattenPairs ps n ++ rest := by
  cases ps with
  | nil =>
    simp only [flattenPairs, List.nil_append]
    rcases hrest with hr | ⟨l0, rest', hr, hle⟩
    · subst hr
      simp
    · subst hr
      have hd : (decide (n < l0.indent)) = false := by
        simp only [decide_eq_false_iff_not]
        omega
      constructor
      · simp [List.takeWhile_cons, hd]
      · simp [List.dropWhile_cons, hd]
  | cons kv ps' =>
    obtain ⟨k, v⟩ := kv
    have h3 := hps
    simp only [wfPairs, Bool.and_eq_true] at h3
    have hv2 : wfNode v = true := by tauto
    obtain ⟨o, ls', he⟩ := flattenPairs_cons_head k v ps' n hv2
    rw [he]
    have hd : (decide (n < (Line.mk n k o).indent)) = false := by
      simp
    constructor
    · simp [List.takeWhile_cons, hd]
    · simp [List.dropWhile_cons, hd]

/-- Parsing a serialized wellformed block followed by a terminated remainder
consumes exactly the block and prepends its pairs. -/
theorem parseBlock_append : (ps : List (String × YamlNode)) → (n : Nat) → (rest : List Line) →
    wfPairs ps = true →
    (rest = [] ∨ ∃ l0 rest', rest = l0 :: rest' ∧ l0.indent ≤ n) →
    parseBlock (flattenPairs ps n ++ rest) n
      = (parseBlock rest n).map (fun qs => ps ++ qs)
  | [], n, rest, _, _ => by
    simp only [flattenPairs, List.nil_append]
    cases h : parseBlock rest n <;> simp
  | (k, v) :: ps, n, rest, h, hrest => by
    have h3 := h
    simp only [wfPairs, Bool.and_eq_true] at h3
    have hk : keyOK k = true := by tauto
    have hv2 : wfNode v = true := by tauto
    have hps : wfPairs ps = true := by tauto
    cases v with
    | scalar sv =>
      rw [show flattenPairs ((k, .scalar sv) :: ps) n ++ rest
          = Line.mk n k (some sv) :: (flattenPairs ps n ++ rest) from by
        simp [flattenPairs, flattenPair]]
      rw [parseBlock_cons]
      simp only [if_pos rfl]
      rw [parseBlock_append ps n rest hps hrest]
      cases hr : parseBlock rest n <;> simp
    | mapping qs =>
      have hqsne : qs.isEmpty = false := by
        have h4 := hv2
        simp only [wfNode, Bool.and_eq_true, Bool.not_eq_true'] at h4
        tauto
      have hqs : wfPairs qs = true := by
        have h4 := hv2
        simp only [wfNode, Bool.and_eq_true] at h4
        tauto
      obtain ⟨k0, v0, qs', hqe⟩ : ∃ k0 v0 qs', qs = (k0, v0) :: qs' := by
        cases qs with
        | nil => simp at hqsne
        | cons kv0 qs' => exact ⟨kv0.1, kv0.2, qs', by simp⟩
      rw [show flattenPairs ((k, .mapping qs) :: ps) n ++ rest
          = Line.mk n k none :: (flattenPairs qs (n + 2) ++ (flattenPairs ps n ++ rest)) from by
        simp [flattenPairs, flattenPair, List.append_assoc]]
      rw [parseBlock_cons]
      simp only [if_pos rfl]
      have hdeep : ∀ l ∈ flattenPairs qs (n + 2),
          ((fun l2 => decide (n < l2.indent)) l : Bool) = true := by
        intro l hm
        have := (flattenPairs_lines_ok qs (n + 2) hqs l hm).2
        simp only [decide_eq_true_eq]
        omega
      have hstop := flatten_then_stop ps n rest hps hrest
      rw [List.takeWhile_append_of_pos hdeep, List.dropWhile_append_of_pos hdeep,
        hstop.1, hstop.2, List.append_nil]
      have hsubne : (flattenPairs qs (n + 2)).isEmpty = false := by
        have hv0 : wfNode v0 = true := by
          rw [hqe] at hqs
          simp only [wfPairs, Bool.and_eq_true] at hqs
          tauto
        obtain ⟨o, ls', he⟩ := flattenPairs_cons_head k0 v0 qs' (n + 2) hv0
        rw [hqe, he]
        rfl
      rw [hsubne]
      simp only [Bool.false_eq_true, if_false]
      rw [show flattenPairs qs (n + 2) = flattenPairs qs (n + 2) ++ [] from by simp,
        parseBlock_append qs (n + 2) [] hqs (Or.inl rfl),
        parseBlock_append ps n rest hps hrest]
      simp only [parseBlock_nil, Option.map_some', List.append_nil]
      cases hr : parseBlock rest n <;> simp
    | sequence xs => simp [wfNode] at hv2
    | document cs => simp [wfNode] at hv2

/-- On the wellformed subset, the modelled yaml emit and parse are mutually
inverse, and the emitted text is non-empty. -/
theorem encode_roundtrip (ps : List (String × YamlNode)) (hne : ps.isEmpty = false)
    (hps : wfPairs ps = true) :
    parseYaml (encodeYaml (.document [.mapping ps])) = some (.document [.mapping ps]) ∧
    encodeYaml (.document [.mapping ps]) ≠ "" := by
  obtain ⟨k, v, ps', hpe⟩ : ∃ k v ps', ps = (k, v) :: ps' := by
    cases ps with
    | nil => simp at hne
    | cons kv ps' => exact ⟨kv.1, kv.2, ps', by simp⟩
  have hv2 : wfNode v = true := by
    rw [hpe] at hps
    simp only [wfPairs, Bool.and_eq_true] at hps
    tauto
  constructor
  · show (lexAll (renderAll (flattenPairs ps 0))).bind _ = _
    rw [lexAll_render _ (fun l hl => (flattenPairs_lines_ok ps 0 hps l hl).1)]
    simp only [Option.some_bind]
    have hp : parseBlock (flattenPairs ps 0) 0 = some ps := by
      have h2 := parseBlock_append ps 0 [] hps (Or.inl rfl)
      rw [List.append_nil] at h2
      rw [h2, parseBlock_nil]
      simp
    rw [hp]
    rfl
  · intro hemp
    have hd := congrArg String.data hemp
    obtain ⟨o, ls', he⟩ := flattenPairs_cons_head k v ps' 0 hv2
    rw [show (encodeYaml (.document [.mapping ps])).data = renderAll (flattenPairs ps 0)
      from rfl, hpe, he] at hd
    simp only [renderAll, List.map_cons, List.flatten_cons, renderLine_body] at hd
    simp [List.append_assoc] at hd

/-- `ParseContent` on non-empty, size-bounded, parseable content. -/
theorem parseContent_of (content : String) (root : YamlNode)
    (hne : content ≠ "") (hsize : goLen content ≤ MaxFileSize)
    (hp : parseYaml content = some root) :
    parseContent content = .ok ⟨root, findTagLocations root [] [], content, true, []⟩ := by
  unfold parseContent
  rw [if_neg hne, if_neg (by omega : ¬MaxFileSize < goLen content), hp]

/-- What a successful `ParseContent` guarantees. -/
theorem parseContent_ok (content : String) (pr : ParseResult)
    (h : parseContent content = .ok pr) :
    pr.TagLocations = findTagLocations pr.Content [] [] ∧
      parseYaml content = some pr.Content := by
  unfold parseContent at h
  by_cases h1 : content = ""
  · rw [if_pos h1] at h
    simp at h
  rw [if_neg h1] at h
  by_cases h2 : MaxFileSize < goLen content
  · rw [if_pos h2] at h
    simp at h
  rw [if_neg h2] at h
  cases hp : parseYaml content with
  | none => rw [hp] at h; simp at h
  | some root =>
    rw [hp] at h
    simp only [Except.ok.injEq] at h
    rw [← h]
    exact ⟨rfl, rfl⟩

/-- Reading back the modified index. -/
theorem getIdx?_modifyIdx_self (f : α → α) : ∀ (ps : List α) (j : Nat),
    getIdx? (modifyIdx ps j f) j = (getIdx? ps j).map f := by
  intro ps
  induction ps with
  | nil => intro j; simp [modifyIdx, getIdx?]
  | cons a as ih =>
    intro j
    cases j with
    | zero => simp [modifyIdx, getIdx?]
    | succ j => simp [modifyIdx, getIdx?, ih j]

/-- Modifying an entry to itself is the identity. -/
theorem modifyIdx_id (f : α → α) : ∀ (ps : List α) (j : Nat) (a : α),
    getIdx? ps j = some a → f a = a → modifyIdx ps j f = ps := by
  intro ps
  induction ps with
  | nil => intro j a h; simp [getIdx?] at h
  | cons x xs ih =>
    intro j a h hf
    cases j with
    | zero =>
      simp only [getIdx?, Option.some.injEq] at h
      subst h
      simp [modifyIdx, hf]
    | succ j =>
      simp only [getIdx?] at h
      simp [modifyIdx, ih j a h hf]

/-- `modifyIdx` preserves emptiness. -/
theorem modifyIdx_isEmpty (f : α → α) (ps : List α) (j : Nat) :
    (modifyIdx ps j f).isEmpty = ps.isEmpty := by
  cases ps <;> cases j <;> simp [modifyIdx]

/-- After the pointer write, the addressed node holds the new value. -/
theorem setValueAt_addrNode : ∀ (a : List Nat) (t : YamlNode) (old V : String),
    addrNode t a = some (.scalar old) → addrNode (setValueAt t a V) a = some (.scalar V) := by
  intro a
  induction a with
  | nil =>
    intro t old V h
    cases t with
    | scalar v =>
      simp only [addrNode, Option.some.injEq] at h
      rw [h]
      rfl
    | mapping ps => simp [addrNode] at h
    | sequence cs => simp [addrNode] at h
    | document cs => simp [addrNode] at h
  | cons j r ih =>
    intro t old V h
    cases t with
    | scalar v => simp [addrNode] at h
    | mapping ps =>
      simp only [addrNode] at h ⊢
      rcases Option.bind_eq_some.mp h with ⟨kv, hg, ha⟩
      simp only [getIdx?_modifyIdx_self, hg, Option.map_some', Option.some_bind]
      exact ih kv.2 old V ha
    | sequence cs =>
      simp only [addrNode] at h ⊢
      rcases Option.bind_eq_some.mp h with ⟨c, hg, ha⟩
      simp only [getIdx?_modifyIdx_self, hg, Option.map_some', Option.some_bind]
      exact ih c old V ha
    | document cs =>
      simp only [addrNode] at h ⊢
      rcases Option.bind_eq_some.mp h with ⟨c, hg, ha⟩
      simp only [getIdx?_modifyIdx_self, hg, Option.map_some', Option.some_bind]
      exact ih c old V ha

/-- Writing the value a scalar already holds changes nothing. -/
theorem setValueAt_same : ∀ (a : List Nat) (t : YamlNode) (v : String),
    addrNode t a = some (.scalar v) → setValueAt t a v = t := by
  intro a
  induction a with
  | nil =>
    intro t v h
    cases t with
    | scalar w =>
      simp only [addrNode, Option.some.injEq] at h
      rw [h]
      rfl
    | mapping ps => simp [addrNode] at h
    | sequence cs => simp [addrNode] at h
    | document cs => simp [addrNode] at h
  | cons j r ih =>
    intro t v h
    cases t with
    | scalar w => simp [addrNode] at h
    | mapping ps =>
      simp only [addrNode] at h
      rcases Option.bind_eq_some.mp h with ⟨kv, hg, ha⟩
      rw [show setValueAt (.mapping ps) (j :: r) v
          = .mapping (modifyIdx ps j (fun kv => (kv.1, setValueAt kv.2 r v))) from rfl]
      rw [modifyIdx_id _ ps j kv hg (by rw [ih kv.2 v ha])]
    | sequence cs =>
      simp only [addrNode] at h
      rcases Option.bind_eq_some.mp h with ⟨c, hg, ha⟩
      rw [show setValueAt (.sequence cs) (j :: r) v
          = .sequence (modifyIdx cs j (fun c => setValueAt c r v)) from rfl]
      rw [modifyIdx_id _ cs j c hg (ih c v ha)]
    | document cs =>
      simp only [addrNode] at h
      rcases Option.bind_eq_some.mp h with ⟨c, hg, ha⟩
      rw [show setValueAt (.document cs) (j :: r) v
          = .document (modifyIdx cs j (fun c => setValueAt c r v)) from rfl]
      rw [modifyIdx_id _ cs j c hg (ih c v ha)]

mutual

/-- The pointer write preserves subset membership (nodes). -/
theorem wfNode_setValueAt : (t : YamlNode) → (a : List Nat) → (V : String) →
    wfNode t = true → valOK V = true → wfNode (setValueAt t a V) = true
  | .scalar _, [], V, _, hV => hV
  | .scalar v, _ :: _, _, h, _ => h
  | .mapping _, [], _, h, _ => h
  | .sequence _, _, _, h, _ => by simp [wfNode] at h
  | .document _, _, _, h, _ => by simp [wfNode] at h
  | .mapping ps, j :: r, V, h, hV => by
    have h2 := h
    simp only [wfNode, Bool.and_eq_true, Bool.not_eq_true'] at h2
    have hwf := wfPairs_modifyIdx ps j r V h2.2 hV
    show (!(modifyIdx ps j (fun kv => (kv.1, setValueAt kv.2 r V))).isEmpty &&
      wfPairs (modifyIdx ps j (fun kv => (kv.1, setValueAt kv.2 r V)))) = true
    rw [modifyIdx_isEmpty]
    simp [h2.1, hwf]

/-- The pointer write preserves subset membership (pair lists). -/
theorem wfPairs_modifyIdx : (ps : List (String × YamlNode)) → (j : Nat) → (r : List Nat) →
    (V : String) → wfPairs ps = true → valOK V = true →
    wfPairs (modifyIdx ps j (fun kv => (kv.1, setValueAt kv.2 r V))) = true
  | [], _, _, _, h, _ => h
  | (k, v) :: ps, 0, r, V, h, hV => by
    have h2 := h
    simp only [wfPairs, Bool.and_eq_true] at h2
    have hk : keyOK k = true := by tauto
    have hv2 : wfNode v = true := by tauto
    have hps : wfPairs ps = true := by tauto
    show wfPairs ((k, setValueAt v r V) :: ps) = true
    have hw := wfNode_setValueAt v r V hv2 hV
    simp [wfPairs, hk, hw, hps]
  | (k, v) :: ps, j + 1, r, V, h, hV => by
    have h2 := h
    simp only [wfPairs, Bool.and_eq_true] at h2
    have hk : keyOK k = true := by tauto
    have hv2 : wfNode v = true := by tauto
    have hps : wfPairs ps = true := by tauto
    have hw := wfPairs_modifyIdx ps j r V hps hV
    show wfPairs ((k, v) :: modifyIdx ps j (fun kv => (kv.1, setValueAt kv.2 r V))) = true
    simp [wfPairs, hk, hv2, hw]

end

/-- Substituting the value at a fixed address is the identity on a location
list containing no location at that address. -/
theorem map_if_id (L : List TagLoc) (tgt : List Nat) (V : String)
    (h : ∀ l ∈ L, l.addr ≠ tgt) :
    L.map (fun l => if l.addr = tgt then TagLoc.mk l.path V l.addr else l) = L := by
  induction L with
  | nil => rfl
  | cons a L ih =>
    have ha : a.addr ≠ tgt := h a (by simp)
    have hL : ∀ l ∈ L, l.addr ≠ tgt := fun l hl => h l (List.mem_cons_of_mem _ hl)
    simp [ha, ih hL]

/-- Every location found below a mapping's pairs records the address of a
scalar node reachable from one of the pairs, stores that scalar's value, and
ends its path at the key governing that scalar. -/
theorem locsPairs_sound : (ps : List (String × YamlNode)) → (path : List String) →
    (addr : List Nat) → (i : Nat) → (l : TagLoc) →
    wfPairs ps = true → l ∈ findLocsPairs ps path addr i →
    ∃ j r k0 v0, getIdx? ps j = some (k0, v0) ∧
      l.addr = addr ++ (i + j) :: r ∧
      addrNode v0 r = some (.scalar l.value) ∧
      keyAt k0 v0 r = l.path.getLast? ∧
      ∃ q, l.path = path ++ q ∧ q ≠ []
  | [], _, _, _, l, _, hl => by simp [findLocsPairs] at hl
  | (k, v) :: ps, path, addr, i, l, h, hl => by
    have h2 := h
    simp only [wfPairs, Bool.and_eq_true] at h2
    have hk : keyOK k = true := by tauto
    have hv2 : wfNode v = true := by tauto
    have hps : wfPairs ps = true := by tauto
    have hkne : k ≠ "" := keyOK_ne_empty k hk
    rw [show findLocsPairs ((k, v) :: ps) path addr i =
        ((if isTagField k v then [⟨path ++ [k], nodeValue v, addr ++ [i]⟩] else [])
          ++ findTagLocations v (path ++ [k]) (addr ++ [i]))
          ++ findLocsPairs ps path addr (i + 1) from by
      simp [findLocsPairs, hkne]] at hl
    rcases List.mem_append.mp hl with hm | hm
    · rcases List.mem_append.mp hm with hm2 | hm2
      swap
      · -- inside the pair's subtree
        cases v with
        | scalar sv => simp [findTagLocations] at hm2
        | mapping qs =>
          have hqs : wfPairs qs = true := by
            have h4 := hv2
            simp only [wfNode, Bool.and_eq_true] at h4
            tauto
          rw [show findTagLocations (.mapping qs) (path ++ [k]) (addr ++ [i])
              = findLocsPairs qs (path ++ [k]) (addr ++ [i]) 0 from by
            simp [findTagLocations]] at hm2
          obtain ⟨j2, r2, k2, v2, hg2, haddr2, han2, hkey2, q2, hq2, hq2ne⟩ :=
            locsPairs_sound qs (path ++ [k]) (addr ++ [i]) 0 l hqs hm2
          refine ⟨0, j2 :: r2, k, .mapping qs, rfl, ?_, ?_, ?_, [k] ++ q2, ?_, by simp⟩
          · rw [haddr2]
            simp [List.append_assoc]
          · simp only [addrNode, hg2, Option.some_bind]
            exact han2
          · simp only [keyAt, hg2, Option.some_bind]
            exact hkey2
          · rw [hq2]
            simp [List.append_assoc]
        | sequence xs => simp [wfNode] at hv2
        | document cs => simp [wfNode] at hv2
      · -- the pair's own location
        have hl2 : l = ⟨path ++ [k], nodeValue v, addr ++ [i]⟩ := by
          cases htf : isTagField k v with
          | true => rw [htf] at hm2; simpa using hm2
          | false => rw [htf] at hm2; simp at hm2
        have hscalar : ∃ sv, v = .scalar sv := by
          cases htf : isTagField k v with
          | true =>
            cases v with
            | scalar sv => exact ⟨sv, rfl⟩
            | mapping ps2 => simp [isTagField] at htf
            | sequence xs => simp [isTagField] at htf
            | document cs => simp [isTagField] at htf
          | false => rw [htf] at hm2; simp at hm2
        obtain ⟨sv, hsv⟩ := hscalar
        refine ⟨0, [], k, v, rfl, ?_, ?_, ?_, [k], ?_, by simp⟩
        · rw [hl2]; simp
        · rw [hl2, hsv]
          simp [addrNode, nodeValue]
        · rw [hl2]
          simp only [keyAt]
          rw [List.getLast?_concat]
        · rw [hl2]
    · -- in the tail
      obtain ⟨j3, r3, k3, v3, hg3, haddr3, han3, hkey3, q3, hq3, hq3ne⟩ :=
        locsPairs_sound ps path addr (i + 1) l hps hm
      refine ⟨j3 + 1, r3, k3, v3, hg3, ?_, han3, hkey3, q3, hq3, hq3ne⟩
      rw [haddr3]
      have : i + 1 + j3 = i + (j3 + 1) := by omega
      rw [this]

/-- Unfolding of the pair walk at a non-empty key. -/
theorem findLocsPairs_cons (k : String) (v : YamlNode) (ps : List (String × YamlNode))
    (path : List String) (addr : List Nat) (i : Nat) (hk : k ≠ "") :
    findLocsPairs ((k, v) :: ps) path addr i
      = ((if isTagField k v then [⟨path ++ [k], nodeValue v, addr ++ [i]⟩] else [])
          ++ findTagLocations v (path ++ [k]) (addr ++ [i]))
        ++ findLocsPairs ps path addr (i + 1) := by
  simp [findLocsPairs, hk]

/-- The walk of a mapping node is the walk of its pairs. -/
theorem findTagLocations_mapping (qs : List (String × YamlNode)) (path : List String)
    (addr : List Nat) :
    findTagLocations (.mapping qs) path addr = findLocsPairs qs path addr 0 := by
  simp [findTagLocations]

/-- A key-matched key classifies any scalar field as tag-like. -/
theorem keyMatch_isTagField (k sv : String) (h : keyMatch k = true) :
    isTagField k (.scalar sv) = true := by
  unfold keyMatch at h
  simp [isTagField, h]

/-- Two extensions of one prefix by different heads differ. -/
theorem addr_cons_ne (addr : List Nat) (x y : Nat) (s t : List Nat) (h : x ≠ y) :
    addr ++ x :: s ≠ addr ++ y :: t := by
  intro he
  have h2 := List.append_cancel_left he
  injection h2 with h1 _
  exact h h1

/-- Writing a new value through a location's address rewrites exactly that
location's indexed value and leaves every other location untouched. -/
theorem locsPairs_set : (ps : List (String × YamlNode)) → (j : Nat) → (r : List Nat) →
    (V : String) → (path : List String) → (addr : List Nat) → (i : Nat) →
    (k0 : String) → (v0 : YamlNode) → (old : String) →
    wfPairs ps = true →
    getIdx? ps j = some (k0, v0) →
    addrNode v0 r = some (.scalar old) →
    keyMatchAt k0 v0 r = true →
    findLocsPairs (modifyIdx ps j (fun kv => (kv.1, setValueAt kv.2 r V))) path addr i
      = (findLocsPairs ps path addr i).map
          (fun l => if l.addr = addr ++ (i + j) :: r then TagLoc.mk l.path V l.addr else l)
  | [], j, _, _, _, _, _, _, _, _, _, hg, _, _ => by simp [getIdx?] at hg
  | (k, v) :: ps', 0, r, V, path, addr, i, k0, v0, old, h, hg, han, hkm => by
    obtain ⟨rfl, rfl⟩ : k = k0 ∧ v = v0 := by
      simpa [getIdx?, Prod.ext_iff] using hg
    have h2 := h
    simp only [wfPairs, Bool.and_eq_true] at h2
    have hk : keyOK k = true := by tauto
    have hv2 : wfNode v = true := by tauto
    have hps : wfPairs ps' = true := by tauto
    have hkne : k ≠ "" := keyOK_ne_empty k hk
    have htail : (findLocsPairs ps' path addr (i + 1)).map
        (fun l => if l.addr = addr ++ (i + 0) :: r then TagLoc.mk l.path V l.addr else l)
        = findLocsPairs ps' path addr (i + 1) := by
      apply map_if_id
      intro l hl
      obtain ⟨j3, r3, k3, v3, _, haddr3, _, _, _⟩ :=
        locsPairs_sound ps' path addr (i + 1) l hps hl
      rw [haddr3]
      exact addr_cons_ne addr (i + 1 + j3) (i + 0) r3 r (by omega)
    cases r with
    | nil =>
      obtain rfl : v = .scalar old := by
        simpa [addrNode] using han
      have hkmk : keyMatch k = true := by
        simpa [keyMatchAt, keyAt] using hkm
      rw [show modifyIdx ((k, .scalar old) :: ps') 0
            (fun kv => (kv.1, setValueAt kv.2 [] V))
          = (k, .scalar V) :: ps' from rfl]
      rw [findLocsPairs_cons k (.scalar V) ps' path addr i hkne,
        findLocsPairs_cons k (.scalar old) ps' path addr i hkne]
      rw [keyMatch_isTagField k V hkmk, keyMatch_isTagField k old hkmk]
      simp only [if_true, List.map_append, htail]
      rw [show findTagLocations (.scalar V) (path ++ [k]) (addr ++ [i]) = [] from rfl,
        show findTagLocations (.scalar old) (path ++ [k]) (addr ++ [i]) = [] from rfl]
      simp [nodeValue]
    | cons j2 r2 =>
      obtain ⟨qs, rfl⟩ : ∃ qs, v = .mapping qs := by
        cases v with
        | scalar sv => simp [addrNode] at han
        | mapping qs => exact ⟨qs, rfl⟩
        | sequence xs => simp [wfNode] at hv2
        | document cs => simp [wfNode] at hv2
      have hqs : wfPairs qs = true := by
        have h4 := hv2
        simp only [wfNode, Bool.and_eq_true] at h4
        tauto
      simp only [addrNode] at han
      rcases Option.bind_eq_some.mp han with ⟨kv2, hg2, han2⟩
      obtain ⟨k2, v2⟩ := kv2
      have hkm2 : keyMatchAt k2 v2 r2 = true := by
        unfold keyMatchAt at hkm ⊢
        simp only [keyAt, hg2, Option.some_bind] at hkm
        exact hkm
      rw [show modifyIdx ((k, .mapping qs) :: ps') 0
            (fun kv => (kv.1, setValueAt kv.2 (j2 :: r2) V))
          = (k, .mapping (modifyIdx qs j2
              (fun kv => (kv.1, setValueAt kv.2 r2 V)))) :: ps' from rfl]
      rw [findLocsPairs_cons k _ ps' path addr i hkne,
        findLocsPairs_cons k (.mapping qs) ps' path addr i hkne]
      rw [show isTagField k (.mapping (modifyIdx qs j2
            (fun kv => (kv.1, setValueAt kv.2 r2 V)))) = false from rfl,
        show isTagField k (.mapping qs) = false from rfl]
      rw [findTagLocations_mapping, findTagLocations_mapping,
        locsPairs_set qs j2 r2 V (path ++ [k]) (addr ++ [i]) 0 k2 v2 old hqs hg2 han2 hkm2]
      rw [show (addr ++ [i]) ++ (0 + j2) :: r2 = addr ++ (i + 0) :: j2 :: r2 from by
        simp [List.append_assoc]]
      have htail2 := htail
      simp only [Nat.add_zero] at htail2
      simp [htail2]
  | (k, v) :: ps', j' + 1, r, V, path, addr, i, k0, v0, old, h, hg, han, hkm => by
    have hg' : getIdx? ps' j' = some (k0, v0) := hg
    have h2 := h
    simp only [wfPairs, Bool.and_eq_true] at h2
    have hk : keyOK k = true := by tauto
    have hv2 : wfNode v = true := by tauto
    have hps : wfPairs ps' = true := by tauto
    have hkne : k ≠ "" := keyOK_ne_empty k hk
    rw [show modifyIdx ((k, v) :: ps') (j' + 1) (fun kv => (kv.1, setValueAt kv.2 r V))
        = (k, v) :: modifyIdx ps' j' (fun kv => (kv.1, setValueAt kv.2 r V)) from rfl]
    rw [findLocsPairs_cons k v _ path addr i hkne,
      findLocsPairs_cons k v ps' path addr i hkne]
    rw [locsPairs_set ps' j' r V path addr (i + 1) k0 v0 old hps hg' han hkm]
    rw [show addr ++ (i + 1 + j') :: r = addr ++ (i + (j' + 1)) :: r from by
      have he : i + 1 + j' = i + (j' + 1) := by omega
      rw [he]]
    rw [List.map_append]
    have hhead : ((if isTagField k v then
          [TagLoc.mk (path ++ [k]) (nodeValue v) (addr ++ [i])] else [])
        ++ findTagLocations v (path ++ [k]) (addr ++ [i])).map
        (fun l => if l.addr = addr ++ (i + (j' + 1)) :: r then TagLoc.mk l.path V l.addr else l)
        = (if isTagField k v then
            [TagLoc.mk (path ++ [k]) (nodeValue v) (addr ++ [i])] else [])
          ++ findTagLocations v (path ++ [k]) (addr ++ [i]) := by
      apply map_if_id
      intro l hl
      rcases List.mem_append.mp hl with hm | hm
      · have hl2 : l.addr = addr ++ [i] := by
          cases htf : isTagField k v with
          | true => rw [htf] at hm; simp at hm; rw [hm]
          | false => rw [htf] at hm; simp at hm
        rw [hl2]
        exact addr_cons_ne addr i (i + (j' + 1)) [] r (by omega)
      · cases v with
        | scalar sv => simp [findTagLocations] at hm
        | mapping qs =>
          have hqs : wfPairs qs = true := by
            have h4 := hv2
            simp only [wfNode, Bool.and_eq_true] at h4
            tauto
          rw [findTagLocations_mapping] at hm
          obtain ⟨j4, r4, k4, v4, _, haddr4, _, _, _⟩ :=
            locsPairs_sound qs (path ++ [k]) (addr ++ [i]) 0 l hqs hm
          rw [haddr4, show (addr ++ [i]) ++ (0 + j4) :: r4
              = addr ++ i :: j4 :: r4 from by simp [List.append_assoc]]
          exact addr_cons_ne addr i (i + (j' + 1)) (j4 :: r4) r (by omega)
        | sequence xs => simp [wfNode] at hv2
        | document cs => simp [wfNode] at hv2
    rw [hhead]

/-- The value substitution preserves paths, so the first path match commutes
with it. -/
theorem find?_map_subst (L : List TagLoc) (pp : List String) (tgt : List Nat) (V : String) :
    (L.map (fun l => if l.addr = tgt then TagLoc.mk l.path V l.addr else l)).find?
        (fun l => pathsEqual l.path pp)
      = (L.find? (fun l => pathsEqual l.path pp)).map
          (fun l => if l.addr = tgt then TagLoc.mk l.path V l.addr else l) := by
  induction L with
  | nil => rfl
  | cons a L ih =>
    have hpath : (if a.addr = tgt then TagLoc.mk a.path V a.addr else a).path = a.path := by
      split <;> rfl
    simp only [List.map_cons, List.find?_cons, hpath]
    cases hp : pathsEqual a.path pp <;> simp [hp, ih]

/-- The locations of a parsed root are the locations of its pairs, rooted at
document child 0. -/
theorem locs_root (ps : List (String × YamlNode)) :
    findTagLocations (.document [.mapping ps]) [] [] = findLocsPairs ps [] [0] 0 := by
  show findLocsChildren [.mapping ps] [] [] 0 = _
  rw [show findLocsChildren [.mapping ps] [] [] 0
      = findTagLocations (.mapping ps) [] ([] ++ [0]) ++ findLocsChildren [] [] [] 1 from by
    simp [findLocsChildren]]
  rw [findTagLocations_mapping]
  simp [findLocsChildren]

/-- Writing through an address of the parsed root rewrites the addressed
pair below the single document child. -/
theorem setValueAt_root (ps : List (String × YamlNode)) (j : Nat) (r : List Nat) (V : String) :
    setValueAt (.document [.mapping ps]) (0 :: j :: r) V
      = .document [.mapping (modifyIdx ps j (fun kv => (kv.1, setValueAt kv.2 r V)))] := rfl

/-- Reading through an address of the parsed root reads the addressed pair
below the single document child. -/
theorem addrNode_root (ps : List (String × YamlNode)) (j : Nat) (r : List Nat) :
    addrNode (.document [.mapping ps]) (0 :: j :: r)
      = (getIdx? ps j).bind (fun kv => addrNode kv.2 r) := rfl

/-- C5: on the modelled subset, for a wellformed parsed document and an
accepted tag value, `UpdateTagSimple` followed by `ParseContent` of the
returned text followed by `GetTagValue` at the updated path (the first
probed conventional path present among the detected locations) returns the
new value. -/
theorem c5_update_parse_get_round_trip (s V out : String) (pr : ParseResult) (p : List String)
    (hparse : parseContent s = .ok pr)
    (hwf : wfRoot pr.Content = true)
    (hfirst : firstCommonPath pr = some p)
    (hrun : updateTagSimple s V = .ok out)
    (hnl : valOK V = true)
    (hsize : goLen out ≤ MaxFileSize) :
    ∃ pr', parseContent out = .ok pr' ∧ getTagValue pr' p = .ok V := by
  -- shape of the parsed root
  obtain ⟨ps, hc⟩ : ∃ ps, pr.Content = .document [.mapping ps] := by
    cases hcc : pr.Content with
    | document cs =>
      cases cs with
      | nil => rw [hcc] at hwf; simp [wfRoot] at hwf
      | cons m cs' =>
        cases cs' with
        | cons m2 cs'' => rw [hcc] at hwf; simp [wfRoot] at hwf
        | nil =>
          cases m with
          | mapping ps => exact ⟨ps, rfl⟩
          | scalar v => rw [hcc] at hwf; simp [wfRoot] at hwf
          | sequence xs => rw [hcc] at hwf; simp [wfRoot] at hwf
          | document ds => rw [hcc] at hwf; simp [wfRoot] at hwf
    | scalar v => rw [hcc] at hwf; simp [wfRoot] at hwf
    | mapping ms => rw [hcc] at hwf; simp [wfRoot] at hwf
    | sequence xs => rw [hcc] at hwf; simp [wfRoot] at hwf
  rw [hc] at hwf
  simp only [wfRoot, Bool.and_eq_true, Bool.not_eq_true'] at hwf
  have hne : ps.isEmpty = false := hwf.1
  have hps : wfPairs ps = true := hwf.2
  -- locations of the original parse
  obtain ⟨hlocs, _⟩ := parseContent_ok s pr hparse
  have hlocs2 : pr.TagLocations = findLocsPairs ps [] [0] 0 := by
    rw [hlocs, hc, locs_root]
  -- the probed path and its location
  unfold firstCommonPath at hfirst
  have hmemp : p ∈ commonTagPaths := List.mem_of_find?_eq_some hfirst
  have hsome : (findTagByPath pr p).isSome = true := by
    have := List.find?_some hfirst
    simpa using this
  obtain ⟨loc, hloc⟩ := Option.isSome_iff_exists.mp hsome
  -- what the update run produced
  unfold updateTagSimple at hrun
  rw [hparse] at hrun
  have hrun : probeTagPaths pr V commonTagPaths = .ok out := hrun
  rw [probe_eq_find pr V commonTagPaths] at hrun
  rw [show commonTagPaths.find? (fun q => (findTagByPath pr q).isSome) = some p
    from hfirst] at hrun
  simp only [updateTag] at hrun
  by_cases hV0 : V = ""
  · rw [if_pos hV0] at hrun
    simp at hrun
  rw [if_neg hV0] at hrun
  by_cases hl0 : MaxTagValueLength < goLen V
  · rw [if_pos hl0] at hrun
    simp at hrun
  rw [if_neg hl0] at hrun
  simp only [hloc] at hrun
  have hout : encodeYaml (setValueAt pr.Content loc.addr V) = out := by
    simpa using hrun
  -- soundness data for the located tag
  have hmem : loc ∈ findLocsPairs ps [] [0] 0 := by
    rw [← hlocs2]
    exact List.mem_of_find?_eq_some hloc
  have hlp : loc.path = p := by
    have := List.find?_some hloc
    exact (pathsEqual_iff loc.path p).mp this
  obtain ⟨j, r, k0, v0, hg, haddr, han, hkey, q, hq, hqne⟩ :=
    locsPairs_sound ps [] [0] 0 loc hps hmem
  have haddr2 : loc.addr = 0 :: j :: r := by
    rw [haddr]
    simp
  -- the probed paths all end in a key-matched segment
  have hkm0 : (match p.getLast? with | some nm => keyMatch nm | none => false) = true := by
    simp only [commonTagPaths, List.mem_cons, List.not_mem_nil, or_false] at hmemp
    rcases hmemp with rfl | rfl | rfl | rfl | rfl | rfl <;> decide
  have hkmat : keyMatchAt k0 v0 r = true := by
    unfold keyMatchAt
    rw [hkey, hlp]
    exact hkm0
  -- the updated tree
  have hset : setValueAt pr.Content loc.addr V
      = .document [.mapping (modifyIdx ps j (fun kv => (kv.1, setValueAt kv.2 r V)))] := by
    rw [hc, haddr2, setValueAt_root]
  have hps' : wfPairs (modifyIdx ps j (fun kv => (kv.1, setValueAt kv.2 r V))) = true :=
    wfPairs_modifyIdx ps j r V hps hnl
  have hne' : (modifyIdx ps j (fun kv => (kv.1, setValueAt kv.2 r V))).isEmpty = false := by
    rw [modifyIdx_isEmpty]
    exact hne
  obtain ⟨hparse', hnem⟩ := encode_roundtrip _ hne' hps'
  rw [show encodeYaml (.document [.mapping (modifyIdx ps j
      (fun kv => (kv.1, setValueAt kv.2 r V)))]) = out from by rw [← hset, hout]] at hparse' hnem
  refine ⟨⟨.document [.mapping (modifyIdx ps j (fun kv => (kv.1, setValueAt kv.2 r V)))],
    findTagLocations (.document [.mapping (modifyIdx ps j
      (fun kv => (kv.1, setValueAt kv.2 r V)))]) [] [], out, true, []⟩,
    parseContent_of out _ hnem hsize hparse', ?_⟩
  -- locating the updated tag in the re-parse
  have hlocs' : findTagLocations (.document [.mapping (modifyIdx ps j
      (fun kv => (kv.1, setValueAt kv.2 r V)))]) [] []
      = (findLocsPairs ps [] [0] 0).map
          (fun l => if l.addr = loc.addr then TagLoc.mk l.path V l.addr else l) := by
    rw [locs_root, locsPairs_set ps j r V [] [0] 0 k0 v0 loc.value hps hg han hkmat, ← haddr]
  unfold getTagValue findTagByPath
  simp only [hlocs']
  rw [find?_map_subst]
  rw [show (findLocsPairs ps [] [0] 0).find? (fun l => pathsEqual l.path p) = some loc from by
    rw [← hlocs2]; exact hloc]
  simp only [Option.map_some', if_pos rfl]
  have han0 : addrNode pr.Content loc.addr = some (.scalar loc.value) := by
    rw [hc, haddr2, addrNode_root, hg]
    simpa using han
  have han' : addrNode (setValueAt pr.Content loc.addr V) loc.addr = some (.scalar V) :=
    setValueAt_addrNode loc.addr pr.Content loc.value V han0
  rw [hset] at han'
  simp [han', nodeValue, hV0]

set_option maxRecDepth 4000 in
/-- Witness for C5: `"image:\n  tag: v1.0.0\n"` updated to `"v2.0.0"` via the
probed path `["image", "tag"]`. -/
theorem c5_witness :
    ∃ pr', parseContent "image:\n  tag: v2.0.0\n" = .ok pr' ∧
      getTagValue pr' ["image", "tag"] = .ok "v2.0.0" :=
  c5_update_parse_get_round_trip "image:\n  tag: v1.0.0\n" "v2.0.0"
    "image:\n  tag: v2.0.0\n"
    ⟨.document [.mapping [("image", .mapping [("tag", .scalar "v1.0.0")])]],
      [⟨["image", "tag"], "v1.0.0", [0, 0, 0]⟩], "image:\n  tag: v1.0.0\n", true, []⟩
    ["image", "tag"] rfl rfl rfl rfl rfl (by decide)

set_option maxRecDepth 4000 in
/-- Counterexample for C6 as stated for EVERY document and tag value: in
`"app: v1.0.0-tag\n"` the field `app` is detected only through the value
heuristic (its value contains `v` and `tag`).  The first application
rewrites the file to `"app: 2.0.0\n"`, whose value no longer looks like a
tag, so the second application of the same update is not byte-identical:
it fails with a tag-not-found `ValidationError` instead of reporting
`ChangesDetected = false`. -/
theorem c6_counterexample :
    (updateTagInFile NewUpdater allOk "ts" (fsWrite fsEmpty "app.yaml" "app: v1.0.0-tag\n")
        ⟨"app.yaml", "2.0.0", ["app"], false, false, false⟩).2
      = .ok ⟨true, "app: 2.0.0\n", "", "app: v1.0.0-tag\n", none, true⟩ ∧
    (updateTagInFile NewUpdater allOk "ts"
        (updateTagInFile NewUpdater allOk "ts" (fsWrite fsEmpty "app.yaml" "app: v1.0.0-tag\n")
          ⟨"app.yaml", "2.0.0", ["app"], false, false, false⟩).1
        ⟨"app.yaml", "2.0.0", ["app"], false, false, false⟩).2
      = .error (.wrap "failed to update tag" (.validation "tag not found at path: [app]")) :=
  ⟨rfl, rfl⟩

/-- C6, amended: idempotence of `UpdateTagInFile` holds for targets whose
governing key is key-matched (contains `tag`, `version`, `image` or
`release`), since such a field stays classified tag-like after its value is
replaced.  Under the stated run conditions (validated stable path, parseable
wellformed content, explicit located path, accepted value, successful
atomic write) the second application of the same update succeeds with
byte-identical `UpdatedContent` and `ChangesDetected = false`. -/
theorem c6_idempotent_on_key_matched_fields
    (cfg : Updater) (orc : FSOracle) (ts : String) (fs : FS)
    (fp content V nm : String) (p : List String) (pr : ParseResult) (loc : TagLoc)
    (hat : cfg.atomicWrite = true)
    (hfp : validateAndCleanFilePath fp = .ok fp)
    (hread : fs fp = some content)
    (hparse : parseContent content = .ok pr)
    (hwf : wfRoot pr.Content = true)
    (hpe : p.isEmpty = false)
    (hfind : findTagByPath pr p = some loc)
    (hlast : loc.path.getLast? = some nm)
    (hkm : keyMatch nm = true)
    (hV : V ≠ "")
    (hVlen : ¬MaxTagValueLength < goLen V)
    (hnl : valOK V = true)
    (hsize : goLen (encodeYaml (setValueAt pr.Content loc.addr V)) ≤ MaxFileSize)
    (hw : orc.writeOk (tempPathFor fp) = true)
    (hr : orc.renameOk (tempPathFor fp) fp = true) :
    ∃ res1, (updateTagInFile cfg orc ts fs ⟨fp, V, p, false, false, false⟩).2 = .ok res1 ∧
      (updateTagInFile cfg orc ts
          (updateTagInFile cfg orc ts fs ⟨fp, V, p, false, false, false⟩).1
          ⟨fp, V, p, false, false, false⟩).2
        = .ok ⟨true, res1.UpdatedContent, "", res1.UpdatedContent, none, false⟩ := by
  -- notation for the written text and the intermediate filesystem
  set out := encodeYaml (setValueAt pr.Content loc.addr V) with hout
  -- the path is non-empty, else validation would have failed
  have hfp0 : fp ≠ "" := by
    intro h
    rw [h] at hfp
    simp [validateAndCleanFilePath] at hfp
  -- first read
  have hread1 : readFile fs fp = .ok content := by
    simp only [readFile, fileExists, hfp, hread, Option.isSome_some, if_true]
  -- the update of the first run
  have hupd : updateTag pr ⟨p, V, false, false⟩ = .ok out := by
    simp only [updateTag]
    rw [if_neg hV, if_neg hVlen]
    simp only [hfind]
  -- the atomic write of either run
  have hwfile : ∀ g : FS, writeFile cfg orc g fp out
      = (fsRename (fsWrite g (tempPathFor fp) out) (tempPathFor fp) fp, none) := by
    intro g
    simp only [writeFile, hfp, hat, if_true, writeFileAtomic, hw, hr]
  -- the first run, fully evaluated
  have hrun1 : updateTagInFile cfg orc ts fs ⟨fp, V, p, false, false, false⟩
      = (fsRename (fsWrite fs (tempPathFor fp) out) (tempPathFor fp) fp,
         .ok ⟨true, out, "", content, none, content != out⟩) := by
    simp only [updateTagInFile, if_neg hfp0, if_neg hV, hread1, hparse, hpe,
      Bool.false_eq_true, if_false, hupd, Bool.false_and, hwfile fs]
  -- the intermediate filesystem holds the written text at the target path
  have hfs1 : fsRename (fsWrite fs (tempPathFor fp) out) (tempPathFor fp) fp fp = some out := by
    simp [fsRename, fsWrite]
  have hread2 : readFile (fsRename (fsWrite fs (tempPathFor fp) out) (tempPathFor fp) fp) fp
      = .ok out := by
    simp only [readFile, fileExists, hfp, hfs1, Option.isSome_some, if_true]
  -- shape of the parsed root
  obtain ⟨ps, hc⟩ : ∃ ps, pr.Content = .document [.mapping ps] := by
    cases hcc : pr.Content with
    | document cs =>
      cases cs with
      | nil => rw [hcc] at hwf; simp [wfRoot] at hwf
      | cons m cs' =>
        cases cs' with
        | cons m2 cs'' => rw [hcc] at hwf; simp [wfRoot] at hwf
        | nil =>
          cases m with
          | mapping ps => exact ⟨ps, rfl⟩
          | scalar v => rw [hcc] at hwf; simp [wfRoot] at hwf
          | sequence xs => rw [hcc] at hwf; simp [wfRoot] at hwf
          | document ds => rw [hcc] at hwf; simp [wfRoot] at hwf
    | scalar v => rw [hcc] at hwf; simp [wfRoot] at hwf
    | mapping ms => rw [hcc] at hwf; simp [wfRoot] at hwf
    | sequence xs => rw [hcc] at hwf; simp [wfRoot] at hwf
  rw [hc] at hwf
  simp only [wfRoot, Bool.and_eq_true, Bool.not_eq_true'] at hwf
  have hne : ps.isEmpty = false := hwf.1
  have hps : wfPairs ps = true := hwf.2
  obtain ⟨hlocs, _⟩ := parseContent_ok content pr hparse
  have hlocs2 : pr.TagLocations = findLocsPairs ps [] [0] 0 := by
    rw [hlocs, hc, locs_root]
  -- soundness data for the located tag
  have hmem : loc ∈ findLocsPairs ps [] [0] 0 := by
    rw [← hlocs2]
    exact List.mem_of_find?_eq_some hfind
  have hlp : loc.path = p := by
    have := List.find?_some hfind
    exact (pathsEqual_iff loc.path p).mp this
  obtain ⟨j, r, k0, v0, hg, haddr, han, hkey, q, hq, hqne⟩ :=
    locsPairs_sound ps [] [0] 0 loc hps hmem
  have haddr2 : loc.addr = 0 :: j :: r := by
    rw [haddr]
    simp
  have hkmat : keyMatchAt k0 v0 r = true := by
    unfold keyMatchAt
    rw [hkey, hlast]
    exact hkm
  -- the updated tree
  have hset : setValueAt pr.Content loc.addr V
      = .document [.mapping (modifyIdx ps j (fun kv => (kv.1, setValueAt kv.2 r V)))] := by
    rw [hc, haddr2, setValueAt_root]
  have hps' : wfPairs (modifyIdx ps j (fun kv => (kv.1, setValueAt kv.2 r V))) = true :=
    wfPairs_modifyIdx ps j r V hps hnl
  have hne' : (modifyIdx ps j (fun kv => (kv.1, setValueAt kv.2 r V))).isEmpty = false := by
    rw [modifyIdx_isEmpty]
    exact hne
  obtain ⟨hpy, hnem⟩ := encode_roundtrip _ hne' hps'
  rw [show encodeYaml (.document [.mapping (modifyIdx ps j
      (fun kv => (kv.1, setValueAt kv.2 r V)))]) = out from by rw [← hset, hout]] at hpy hnem
  have hparse2 : parseContent out
      = .ok ⟨.document [.mapping (modifyIdx ps j (fun kv => (kv.1, setValueAt kv.2 r V)))],
          findTagLocations (.document [.mapping (modifyIdx ps j
            (fun kv => (kv.1, setValueAt kv.2 r V)))]) [] [], out, true, []⟩ :=
    parseContent_of out _ hnem hsize hpy
  -- locating the target in the re-parse
  have hlocs' : findTagLocations (.document [.mapping (modifyIdx ps j
      (fun kv => (kv.1, setValueAt kv.2 r V)))]) [] []
      = (findLocsPairs ps [] [0] 0).map
          (fun l => if l.addr = loc.addr then TagLoc.mk l.path V l.addr else l) := by
    rw [locs_root, locsPairs_set ps j r V [] [0] 0 k0 v0 loc.value hps hg han hkmat, ← haddr]
  have hfind2 : findTagByPath
      ⟨.document [.mapping (modifyIdx ps j (fun kv => (kv.1, setValueAt kv.2 r V)))],
        findTagLocations (.document [.mapping (modifyIdx ps j
          (fun kv => (kv.1, setValueAt kv.2 r V)))]) [] [], out, true, []⟩ p
      = some (TagLoc.mk loc.path V loc.addr) := by
    unfold findTagByPath
    simp only [hlocs']
    rw [find?_map_subst]
    rw [show (findLocsPairs ps [] [0] 0).find? (fun l => pathsEqual l.path p) = some loc from by
      rw [← hlocs2]; exact hfind]
    simp
  -- the second update writes the same value into the same place: fixed point
  have han0 : addrNode pr.Content loc.addr = some (.scalar loc.value) := by
    rw [hc, haddr2, addrNode_root, hg]
    simpa using han
  have han' : addrNode (setValueAt pr.Content loc.addr V) loc.addr = some (.scalar V) :=
    setValueAt_addrNode loc.addr pr.Content loc.value V han0
  have hsame : setValueAt (setValueAt pr.Content loc.addr V) loc.addr V
      = setValueAt pr.Content loc.addr V :=
    setValueAt_same loc.addr (setValueAt pr.Content loc.addr V) V han'
  rw [hset] at hsame
  have hupd2 : updateTag
      ⟨.document [.mapping (modifyIdx ps j (fun kv => (kv.1, setValueAt kv.2 r V)))],
        findTagLocations (.document [.mapping (modifyIdx ps j
          (fun kv => (kv.1, setValueAt kv.2 r V)))]) [] [], out, true, []⟩
      ⟨p, V, false, false⟩ = .ok out := by
    simp only [updateTag]
    rw [if_neg hV, if_neg hVlen]
    simp only [hfind2, hsame]
    rw [show encodeYaml (.document [.mapping (modifyIdx ps j
      (fun kv => (kv.1, setValueAt kv.2 r V)))]) = out from by rw [← hset, hout]]
  -- the second run, fully evaluated
  have hchg : (out != out) = false := by
    simp
  have hrun2 : updateTagInFile cfg orc ts
      (fsRename (fsWrite fs (tempPathFor fp) out) (tempPathFor fp) fp)
      ⟨fp, V, p, false, false, false⟩
      = (fsRename (fsWrite (fsRename (fsWrite fs (tempPathFor fp) out) (tempPathFor fp) fp)
           (tempPathFor fp) out) (tempPathFor fp) fp,
         .ok ⟨true, out, "", out, none, false⟩) := by
    simp only [updateTagInFile, if_neg hfp0, if_neg hV, hread2, hparse2, hpe,
      Bool.false_eq_true, if_false, hupd2, Bool.false_and, hchg,
      hwfile (fsRename (fsWrite fs (tempPathFor fp) out) (tempPathFor fp) fp)]
  refine ⟨⟨true, out, "", content, none, content != out⟩, ?_, ?_⟩
  · rw [hrun1]
  · rw [show (updateTagInFile cfg orc ts fs ⟨fp, V, p, false, false, false⟩).1
      = fsRename (fsWrite fs (tempPathFor fp) out) (tempPathFor fp) fp from by rw [hrun1]]
    rw [hrun2]

set_option maxRecDepth 4000 in
/-- Witness for the amended C6 on `"image:\n  tag: v1.0.0\n"`: the key `tag`
is key-matched, so the update to `"v2.0.0"` is idempotent. -/
theorem c6_witness :
    ∃ res1, (updateTagInFile NewUpdater allOk "ts"
        (fsWrite fsEmpty "app.yaml" "image:\n  tag: v1.0.0\n")
        ⟨"app.yaml", "v2.0.0", ["image", "tag"], false, false, false⟩).2 = .ok res1 ∧
      (updateTagInFile NewUpdater allOk "ts"
          (updateTagInFile NewUpdater allOk "ts"
            (fsWrite fsEmpty "app.yaml" "image:\n  tag: v1.0.0\n")
            ⟨"app.yaml", "v2.0.0", ["image", "tag"], false, false, false⟩).1
          ⟨"app.yaml", "v2.0.0", ["image", "tag"], false, false, false⟩).2
        = .ok ⟨true, res1.UpdatedContent, "", res1.UpdatedContent, none, false⟩ :=
  c6_idempotent_on_key_matched_fields NewUpdater allOk "ts"
    (fsWrite fsEmpty "app.yaml" "image:\n  tag: v1.0.0\n")
    "app.yaml" "image:\n  tag: v1.0.0\n" "v2.0.0" "tag" ["image", "tag"]
    ⟨.document [.mapping [("image", .mapping [("tag", .scalar "v1.0.0")])]],
      [⟨["image", "tag"], "v1.0.0", [0, 0, 0]⟩], "image:\n  tag: v1.0.0\n", true, []⟩
    ⟨["image", "tag"], "v1.0.0", [0, 0, 0]⟩
    rfl rfl rfl rfl rfl rfl rfl rfl rfl (by decide) (by decide) (by decide) (by decide)
    rfl rfl
